import Mathlib

/-!
# gipECS: identity allocator, sparse-set stores, registry and views

A shallow embedding of `src/ecs.hpp`.

* `std::vector<X>` is a `List X` in the same order (`push_back` appends at the end,
  `back` is the last element, `pop_back` drops it).
* `std::unordered_map<K, X>` is an association list `List (K × X)`; only the first entry
  of a key is ever looked at, assignment replaces it in place and `erase` removes the key.
* `entity` is `uint32_t`: a natural number, and `++last_` is taken modulo `2 ^ 32`.
* `size_t` indices are natural numbers; `dense_.size() - 1` wraps to `2 ^ 64 - 1` on an
  empty vector.
* A call returns `Except Fault _`: `assert` failing is `Fault.assertion`, an access outside
  a vector (or `pop_back` on an empty one) is `Fault.undefined`.
* `std::type_index` is a natural number, and all component types share one value type `V`.
-/

namespace ecs

/-- Ways in which a call fails to return normally. -/
inductive Fault where
  /-- an `assert` fired -/
  | assertion
  /-- a vector was read, written or popped outside its bounds -/
  | undefined
  /-- the step budget of an embedded loop ran out -/
  | fuel
deriving DecidableEq, Repr

deriving instance DecidableEq for Except

/-- The source has `using entity = uint32_t`. -/
abbrev entity := Nat

/-- The source has `static constexpr entity null = 0`. -/
def null : entity := 0

/-- Number of values of `uint32_t`. -/
def entityRange : Nat := 2 ^ 32

/-- Number of values of `size_t`. -/
def sizeRange : Nat := 2 ^ 64

/-! ## Vectors and hash maps -/

/-- Read `v[i]`; outside the bounds the behaviour is undefined. -/
def vecAt {α : Type} (v : List α) (i : Nat) : Except Fault α :=
  match v[i]? with
  | some a => .ok a
  | none => .error .undefined

/-- Write `v[i] = a`; outside the bounds the behaviour is undefined. -/
def vecSet {α : Type} (v : List α) (i : Nat) (a : α) : Except Fault (List α) :=
  if i < v.length then .ok (v.set i a) else .error .undefined

/-- Call `v.pop_back()`; on an empty vector the behaviour is undefined. -/
def vecPop {α : Type} (v : List α) : Except Fault (List α) :=
  if v.length = 0 then .error .undefined else .ok v.dropLast

/-- Call `m.find(k)`: the value stored under `k`, if any. -/
def umFind {β : Type} : List (Nat × β) → Nat → Option β
  | [], _ => none
  | (k', b) :: rest, k => if k' = k then some b else umFind rest k

/-- Call `m[k] = b`: replace the value under `k`, or add the key. -/
def umAssign {β : Type} : List (Nat × β) → Nat → β → List (Nat × β)
  | [], k, b => [(k, b)]
  | (k', b') :: rest, k, b =>
    if k' = k then (k, b) :: rest else (k', b') :: umAssign rest k b

/-- Call `m.erase(k)`. -/
def umErase {β : Type} : List (Nat × β) → Nat → List (Nat × β)
  | [], _ => []
  | (k', b) :: rest, k => if k' = k then umErase rest k else (k', b) :: umErase rest k

/-! ## EntityPool -/

/-- Fields of `class EntityPool`. -/
structure EntityPool where
  /-- highest identity issued so far -/
  last_ : entity
  /-- recycled identities, most recently freed last -/
  free_ : List entity
deriving DecidableEq, Repr

namespace EntityPool

/-- A default-constructed pool: `last_ = null`, `free_` empty. -/
def fresh : EntityPool := ⟨null, []⟩

/-- Embeds `EntityPool::create`: with an empty free list `++last_` (in `uint32_t`) is returned,
otherwise `free_.back()` is popped and returned. -/
def create (p : EntityPool) : entity × EntityPool :=
  match p.free_.getLast? with
  | none =>
    let l := (p.last_ + 1) % entityRange
    (l, { p with last_ := l })
  | some e => (e, { p with free_ := p.free_.dropLast })

/-- Embeds `EntityPool::destroy`. -/
def destroy (p : EntityPool) (e : entity) : EntityPool :=
  if e = null then p else { p with free_ := p.free_ ++ [e] }

/-- Embeds `EntityPool::isFree`: a linear search of the free list. -/
def isFree (p : EntityPool) (e : entity) : Bool :=
  decide (e ∈ p.free_)

/-- Embeds `EntityPool::isValid`. -/
def isValid (p : EntityPool) (e : entity) : Bool :=
  decide (e ≠ null) && decide (e ≤ p.last_) && !p.isFree e

/-- Call `create` `n` times in a row, discarding the results. -/
def createN : Nat → EntityPool → EntityPool
  | 0, p => p
  | n + 1, p => createN n p.create.2

end EntityPool

/-- One call on an `EntityPool`. -/
inductive PoolOp where
  | create
  | destroy (e : entity)
deriving DecidableEq, Repr

/-- Number of `create` calls in a sequence. -/
def PoolOp.creates : List PoolOp → Nat
  | [] => 0
  | .create :: ops => PoolOp.creates ops + 1
  | .destroy _ :: ops => PoolOp.creates ops

/-- Run a call sequence from pool `p`, with `live` the entities returned by `create` and not
destroyed since; the result says whether every `create` returned an entity that was not live
at that moment. -/
def createsDistinct : EntityPool → List entity → List PoolOp → Bool
  | _, _, [] => true
  | p, live, .create :: ops =>
    decide (p.create.1 ∉ live) && createsDistinct p.create.2 (p.create.1 :: live) ops
  | p, live, .destroy e :: ops =>
    createsDistinct (p.destroy e) (live.filter (fun x => decide (x ≠ e))) ops

/-- Whether every `destroy e` of the sequence is applied while `isValid e` holds. -/
def destroysValid : EntityPool → List PoolOp → Bool
  | _, [] => true
  | p, .create :: ops => destroysValid p.create.2 ops
  | p, .destroy e :: ops => p.isValid e && destroysValid (p.destroy e) ops

/-- Pool states reached from a fresh pool by `create` and by `destroy` on valid entities. -/
inductive EntityPool.Reachable : EntityPool → Prop where
  | fresh : EntityPool.Reachable EntityPool.fresh
  | create {p : EntityPool} : EntityPool.Reachable p → EntityPool.Reachable p.create.2
  | destroy {p : EntityPool} (e : entity) :
    EntityPool.Reachable p → p.isValid e = true → EntityPool.Reachable (p.destroy e)

/-- Pool states reached from a fresh pool by `create` and by `destroy` on any entity. -/
inductive EntityPool.ReachableAny : EntityPool → Prop where
  | fresh : EntityPool.ReachableAny EntityPool.fresh
  | create {p : EntityPool} : EntityPool.ReachableAny p → EntityPool.ReachableAny p.create.2
  | destroy {p : EntityPool} (e : entity) :
    EntityPool.ReachableAny p → EntityPool.ReachableAny (p.destroy e)

/-- The free list has no duplicate, no null entity, and only identities up to `last_`. -/
def EntityPool.FreeOk (p : EntityPool) : Prop :=
  p.free_.Nodup ∧ ∀ e ∈ p.free_, e ≠ null ∧ e ≤ p.last_

/-! ## Storage -/

/-- Fields of `class Storage<T>`. -/
structure Storage (T : Type) where
  /-- entity to dense slot -/
  sparse_ : List (entity × Nat)
  /-- dense entities -/
  entities_ : List entity
  /-- dense values, parallel to `entities_` -/
  dense_ : List T
deriving DecidableEq, Repr

namespace Storage

variable {T : Type}

/-- A default-constructed store. -/
def empty : Storage T := ⟨[], [], []⟩

/-- Embeds `Storage::contains`. -/
def contains (s : Storage T) (e : entity) : Except Fault Bool :=
  match umFind s.sparse_ e with
  | none => .ok false
  | some idx =>
    if idx < s.dense_.length then
      match vecAt s.entities_ idx with
      | .ok x => .ok (decide (x = e))
      | .error f => .error f
    else .ok false

/-- Embeds `Storage::emplace`, with `v` the value constructed from the arguments. The reference
returned by the source designates the new last slot of `dense_`, which holds `v`. -/
def emplace (s : Storage T) (e : entity) (v : T) : Except Fault (Storage T) :=
  match s.contains e with
  | .error f => .error f
  | .ok true => .error .assertion
  | .ok false =>
    let idx := s.dense_.length
    .ok { sparse_ := umAssign s.sparse_ e idx
          entities_ := s.entities_ ++ [e]
          dense_ := s.dense_ ++ [v] }

/-- The block of `Storage::remove` guarded by `idx != last`: the last slot is moved into
slot `idx`. -/
def moveLast (s : Storage T) (idx last : Nat) : Except Fault (Storage T) :=
  match vecAt s.dense_ last with
  | .error f => .error f
  | .ok v =>
    match vecSet s.dense_ idx v with
    | .error f => .error f
    | .ok d =>
      match vecAt s.entities_ last with
      | .error f => .error f
      | .ok moved =>
        match vecSet s.entities_ idx moved with
        | .error f => .error f
        | .ok es =>
          .ok { sparse_ := umAssign s.sparse_ moved idx, entities_ := es, dense_ := d }

/-- The tail of `Storage::remove`: both vectors are popped and the key is erased. -/
def dropLast (s : Storage T) (e : entity) : Except Fault (Storage T) :=
  match vecPop s.dense_ with
  | .error f => .error f
  | .ok d =>
    match vecPop s.entities_ with
    | .error f => .error f
    | .ok es => .ok { sparse_ := umErase s.sparse_ e, entities_ := es, dense_ := d }

/-- Embeds `Storage::remove`. -/
def remove (s : Storage T) (e : entity) : Except Fault (Storage T) :=
  match umFind s.sparse_ e with
  | none => .ok s
  | some idx =>
    let last := if s.dense_.length = 0 then sizeRange - 1 else s.dense_.length - 1
    if idx ≠ last then
      match s.moveLast idx last with
      | .error f => .error f
      | .ok s1 => s1.dropLast e
    else s.dropLast e

/-- Embeds `Storage::get`. -/
def get (s : Storage T) (e : entity) : Except Fault T :=
  match umFind s.sparse_ e with
  | none => .error .assertion
  | some idx => vecAt s.dense_ idx

/-- Embeds `Storage::entities`. -/
def entities (s : Storage T) : List entity := s.entities_

/-- Embeds `Storage::data`. -/
def data (s : Storage T) : List T := s.dense_

/-- The sparse/dense invariant: every sparse entry is a valid index of both dense arrays and
points at its own entity, the dense arrays have equal length, and no entity is twice in the
dense entity array. -/
def Inv (s : Storage T) : Prop :=
  (∀ e i, umFind s.sparse_ e = some i →
      i < s.entities_.length ∧ i < s.dense_.length ∧ s.entities_[i]? = some e) ∧
    s.entities_.length = s.dense_.length ∧ s.entities_.Nodup

/-- The invariant together with its converse: every dense entity has a sparse entry. -/
def WF (s : Storage T) : Prop :=
  s.Inv ∧ ∀ e ∈ s.entities_, ∃ i, umFind s.sparse_ e = some i

end Storage

/-- One call on a `Storage`. -/
inductive StoreOp (T : Type) where
  | emplace (e : entity) (v : T)
  | remove (e : entity)
deriving DecidableEq, Repr

/-- Apply one call. -/
def StoreOp.apply {T : Type} (s : Storage T) : StoreOp T → Except Fault (Storage T)
  | .emplace e v => s.emplace e v
  | .remove e => s.remove e

/-- Apply a call sequence from left to right, stopping at the first fault. An `emplace` on an
entity the store contains stops the run with `Fault.assertion`. -/
def StoreOp.run {T : Type} : Storage T → List (StoreOp T) → Except Fault (Storage T)
  | s, [] => .ok s
  | s, op :: ops =>
    match StoreOp.apply s op with
    | .error f => .error f
    | .ok s1 => StoreOp.run s1 ops

/-- Whether, along the run of a call sequence from `s`, every `emplace e` is applied while
`contains e` is false. -/
def StoreOp.respects {T : Type} : Storage T → List (StoreOp T) → Bool
  | _, [] => true
  | s, op :: ops =>
    (match op with
      | .emplace e _ => decide (s.contains e = .ok false)
      | .remove _ => true) &&
    (match StoreOp.apply s op with
      | .ok s1 => StoreOp.respects s1 ops
      | .error _ => true)

/-- A decidable check that implies the sparse/dense invariant. -/
def Storage.check {T : Type} (s : Storage T) : Bool :=
  s.sparse_.all (fun p =>
      decide (p.2 < s.entities_.length) && decide (p.2 < s.dense_.length) &&
        decide (s.entities_[p.2]? = some p.1)) &&
    decide (s.entities_.length = s.dense_.length) && decide s.entities_.Nodup

/-! ## Registry -/

/-- Fields of `class Registry`; `pools_` is keyed by the type index. -/
structure Registry (V : Type) where
  /-- one store per component type -/
  pools_ : List (Nat × Storage V)
  /-- the identity allocator -/
  pool_ : EntityPool
deriving DecidableEq, Repr

namespace Registry

variable {V : Type}

/-- A default-constructed registry. -/
def empty : Registry V := ⟨[], EntityPool.fresh⟩

/-- Embeds `Registry::create`. -/
def create (r : Registry V) : entity × Registry V :=
  (r.pool_.create.1, { r with pool_ := r.pool_.create.2 })

/-- The loop of `Registry::destroy`: `remove(e)` on every store. -/
def removeAll : List (Nat × Storage V) → entity → Except Fault (List (Nat × Storage V))
  | [], _ => .ok []
  | (k, s) :: rest, e =>
    match s.remove e with
    | .error f => .error f
    | .ok s1 =>
      match removeAll rest e with
      | .error f => .error f
      | .ok rest1 => .ok ((k, s1) :: rest1)

/-- Embeds `Registry::destroy`. -/
def destroy (r : Registry V) (e : entity) : Except Fault (Registry V) :=
  match removeAll r.pools_ e with
  | .error f => .error f
  | .ok ps => .ok { pools_ := ps, pool_ := r.pool_.destroy e }

/-- Embeds `Registry::assure`: the store of type `t`, created empty when absent, and the
registry after the call. -/
def assure (r : Registry V) (t : Nat) : Storage V × Registry V :=
  match umFind r.pools_ t with
  | none => (Storage.empty, { r with pools_ := r.pools_ ++ [(t, Storage.empty)] })
  | some s => (s, r)

/-- Embeds `Registry::emplace`: the store is resolved by `assure` and changed in place. -/
def emplace (r : Registry V) (t : Nat) (e : entity) (v : V) : Except Fault (Registry V) :=
  match (r.assure t).1.emplace e v with
  | .error f => .error f
  | .ok s1 => .ok { (r.assure t).2 with pools_ := umAssign (r.assure t).2.pools_ t s1 }

/-- Embeds `Registry::all_of`. -/
def all_of (r : Registry V) (t : Nat) (e : entity) : Except Fault Bool :=
  match umFind r.pools_ t with
  | none => .ok false
  | some s => s.contains e

/-- Embeds `Registry::get`. -/
def get (r : Registry V) (t : Nat) (e : entity) : Except Fault V :=
  match umFind r.pools_ t with
  | none => .error .assertion
  | some s => s.get e

/-- Every registered store satisfies the sparse/dense invariant. -/
def Inv (r : Registry V) : Prop :=
  ∀ p ∈ r.pools_, p.2.Inv

end Registry

/-- A decidable check that implies `Registry.Inv`. -/
def Registry.check {V : Type} (r : Registry V) : Bool :=
  r.pools_.all (fun p => p.2.check)

/-- A decidable check that implies `Storage.WF`. -/
def Storage.checkWF {T : Type} (s : Storage T) : Bool :=
  s.check && s.entities_.all (fun e => (umFind s.sparse_ e).isSome)

/-- Every registered store satisfies the sparse/dense invariant and its converse. -/
def Registry.WF {V : Type} (r : Registry V) : Prop :=
  ∀ p ∈ r.pools_, p.2.WF

/-- A decidable check that implies `Registry.WF`. -/
def Registry.checkWF {V : Type} (r : Registry V) : Bool :=
  r.pools_.all (fun p => p.2.checkWF)

/-- Registry states reached from an empty registry by `create`, `destroy` and `emplace`, the
latter on entities that satisfy `allowed`; a call that faults yields no state. -/
inductive Registry.Reachable {V : Type} (allowed : entity → Prop) : Registry V → Prop where
  | empty : Registry.Reachable allowed Registry.empty
  | create {r : Registry V} : Registry.Reachable allowed r →
    Registry.Reachable allowed r.create.2
  | destroy {r r1 : Registry V} (e : entity) : Registry.Reachable allowed r →
    r.destroy e = .ok r1 → Registry.Reachable allowed r1
  | emplace {r r1 : Registry V} (t : Nat) (e : entity) (v : V) :
    Registry.Reachable allowed r → allowed e → r.emplace t e v = .ok r1 →
    Registry.Reachable allowed r1

/-- A registry with entity 1 holding types 0 and 1, entity 2 holding type 0, and entity 3
holding types 0, 1 and 2; type 3 has no store. -/
def Registry.sample : Registry Nat :=
  ⟨[(0, ⟨[(1, 0), (2, 1), (3, 2)], [1, 2, 3], [10, 20, 30]⟩),
    (1, ⟨[(1, 0), (3, 1)], [1, 3], [11, 31]⟩),
    (2, ⟨[(3, 0)], [3], [32]⟩)], ⟨3, []⟩⟩

/-! ## View -/

/-- A `View<Ts...>`: the type list, with its first type apart. The registry the source reaches
through `regPtr` is passed to every function. -/
structure View where
  /-- the lead type -/
  lead : Nat
  /-- the other types, in order -/
  others : List Nat
deriving DecidableEq, Repr

/-- Fields of `View::iterator`, without the back pointer. -/
structure Iterator where
  /-- position in the lead store -/
  ePos : Nat
deriving DecidableEq, Repr

namespace View

variable {V : Type}

/-- Embeds `Registry::view_all`; the view holds no registry state. -/
def view_all (lead : Nat) (others : List Nat) : View := ⟨lead, others⟩

/-- The type list of the view. -/
def types (w : View) : List Nat := w.lead :: w.others

/-- Embeds `View::leadEntities`: `assure` may register the lead store. -/
def leadEntities (w : View) (r : Registry V) : List entity × Registry V :=
  ((r.assure w.lead).1.entities, (r.assure w.lead).2)

/-- The pack expansion in `View::matches`: `ok = ok && all_of<T>(e)` for each type in turn. -/
def matchesFrom (r : Registry V) (e : entity) : List Nat → Bool → Except Fault Bool
  | [], ok => .ok ok
  | t :: ts, true =>
    match r.all_of t e with
    | .error f => .error f
    | .ok b => matchesFrom r e ts b
  | _ :: ts, false => matchesFrom r e ts false

/-- Embeds `View::matches`. -/
def «matches» (w : View) (r : Registry V) (e : entity) : Except Fault Bool :=
  matchesFrom r e w.types true

/-- The loop of `View::advanceToValid` over the lead entities `es`. -/
def advanceLoop (w : View) (r : Registry V) (es : List entity) : Nat → Nat → Except Fault Nat
  | 0, start => if start < es.length then .error .fuel else .ok start
  | n + 1, start =>
    if start < es.length then
      match vecAt es start with
      | .error f => .error f
      | .ok e =>
        match w.«matches» r e with
        | .error f => .error f
        | .ok true => .ok start
        | .ok false => advanceLoop w r es n (start + 1)
    else .ok start

/-- Embeds `View::advanceToValid`. -/
def advanceToValid (w : View) (r : Registry V) (start : Nat) : Except Fault (Nat × Registry V) :=
  match advanceLoop w (w.leadEntities r).2 (w.leadEntities r).1
      ((w.leadEntities r).1.length - start) start with
  | .error f => .error f
  | .ok i => .ok (i, (w.leadEntities r).2)

/-- Embeds `View::begin`. -/
def begin (w : View) (r : Registry V) : Except Fault (Iterator × Registry V) :=
  match w.advanceToValid r 0 with
  | .error f => .error f
  | .ok (i, r1) => .ok (⟨i⟩, r1)

/-- Embeds `View::end`. -/
def «end» (w : View) (r : Registry V) : Iterator × Registry V :=
  (⟨(w.leadEntities r).1.length⟩, (w.leadEntities r).2)

/-- Embeds `iterator::operator!=`. -/
def Iterator.ne (a b : Iterator) : Bool := decide (a.ePos ≠ b.ePos)

/-- Embeds `iterator::operator++`. -/
def next (w : View) (r : Registry V) (it : Iterator) : Except Fault (Iterator × Registry V) :=
  match w.advanceToValid r (it.ePos + 1) with
  | .error f => .error f
  | .ok (i, r1) => .ok (⟨i⟩, r1)

/-- Embeds `iterator::operator*`. -/
def deref (w : View) (r : Registry V) (it : Iterator) : Except Fault (entity × Registry V) :=
  match vecAt (w.leadEntities r).1 it.ePos with
  | .error f => .error f
  | .ok e => .ok (e, (w.leadEntities r).2)

/-- The loop `for (; it != last; ++it) body(*it)`: the entities yielded so far are `acc`. -/
def loop (w : View) (body : entity → Registry V → Except Fault (Registry V)) (last : Iterator) :
    Nat → Iterator → Registry V → List entity → Except Fault (List entity × Registry V)
  | 0, it, r, acc => if Iterator.ne it last then .error .fuel else .ok (acc, r)
  | n + 1, it, r, acc =>
    if Iterator.ne it last then
      match w.deref r it with
      | .error f => .error f
      | .ok (e, r1) =>
        match body e r1 with
        | .error f => .error f
        | .ok r2 =>
          match w.next r2 it with
          | .error f => .error f
          | .ok (it1, r3) => loop w body last n it1 r3 (acc ++ [e])
    else .ok (acc, r)

/-- The statement `for (entity e : view) body(e)`: `begin()` and `end()` are evaluated once, and
the result lists the entities yielded, in order. The position grows at each step, so
`end + 1` steps are all a terminating run can take. -/
def forEach (w : View) (r : Registry V) (body : entity → Registry V → Except Fault (Registry V)) :
    Except Fault (List entity × Registry V) :=
  match w.begin r with
  | .error f => .error f
  | .ok (it, r1) =>
    loop w body (w.«end» r1).1 ((w.«end» r1).1.ePos + 1) it (w.«end» r1).2 []

/-- A traversal from `begin()` to `end()` whose body changes nothing. -/
def traverse (w : View) (r : Registry V) : Except Fault (List entity × Registry V) :=
  w.forEach r (fun _ r1 => .ok r1)

/-- The loop `for (; it != view.end(); ++it) body(*it)`, in which `end()` is evaluated at every
test: the entities yielded so far are `acc`. -/
def loopLive (w : View) (body : entity → Registry V → Except Fault (Registry V)) :
    Nat → Iterator → Registry V → List entity → Except Fault (List entity × Registry V)
  | 0, it, r, acc =>
    if Iterator.ne it (w.«end» r).1 then .error .fuel else .ok (acc, (w.«end» r).2)
  | n + 1, it, r, acc =>
    if Iterator.ne it (w.«end» r).1 then
      match w.deref (w.«end» r).2 it with
      | .error f => .error f
      | .ok (e, r1) =>
        match body e r1 with
        | .error f => .error f
        | .ok r2 =>
          match w.next r2 it with
          | .error f => .error f
          | .ok (it1, r3) => loopLive w body n it1 r3 (acc ++ [e])
    else .ok (acc, (w.«end» r).2)

/-- The statement `for (auto it = view.begin(); it != view.end(); ++it) body(*it)`, run for at
most `fuel` iterations. -/
def forEachLive (w : View) (r : Registry V)
    (body : entity → Registry V → Except Fault (Registry V)) (fuel : Nat) :
    Except Fault (List entity × Registry V) :=
  match w.begin r with
  | .error f => .error f
  | .ok (it, r1) => loopLive w body fuel it r1 []

/-- A loop body that destroys the entity `x` when it is the one visited. -/
def destroyVisited (x : entity) (e : entity) (r : Registry V) : Except Fault (Registry V) :=
  if e = x then r.destroy e else .ok r

end View

/-- Whether `all_of t e` is true for every type `t` of the view. -/
def View.holdsAll {V : Type} (w : View) (r : Registry V) (e : entity) : Bool :=
  w.types.all (fun t => decide (r.all_of t e = .ok true))

/-- The lead store's dense entity sequence, empty when the type has no store. -/
def Registry.leadDense {V : Type} (r : Registry V) (t : Nat) : List entity :=
  match umFind r.pools_ t with
  | none => []
  | some s => s.entities


/-! ## Lemmas on vectors and hash maps -/

theorem umFind_assign {β : Type} (m : List (Nat × β)) (k : Nat) (b : β) (k' : Nat) :
    umFind (umAssign m k b) k' = if k' = k then some b else umFind m k' := by
  induction m with
  | nil =>
    by_cases h : k' = k
    · simp [umAssign, umFind, h]
    · have h' : ¬ k = k' := fun x => h x.symm
      simp [umAssign, umFind, h, h']
  | cons p rest ih =>
    obtain ⟨k0, b0⟩ := p
    by_cases h0 : k0 = k
    · by_cases h : k' = k
      · simp [umAssign, umFind, h0, h]
      · have h' : ¬ k = k' := fun x => h x.symm
        simp [umAssign, umFind, h0, h, h']
    · by_cases h : k' = k
      · subst h
        simp only [if_true] at ih
        simp [umAssign, umFind, h0, ih]
      · simp only [h, if_false] at ih
        simp [umAssign, umFind, h0, h, ih]

theorem umFind_erase {β : Type} (m : List (Nat × β)) (k k' : Nat) :
    umFind (umErase m k) k' = if k' = k then none else umFind m k' := by
  induction m with
  | nil => simp [umErase, umFind]
  | cons p rest ih =>
    obtain ⟨k0, b0⟩ := p
    by_cases h0 : k0 = k
    · by_cases h : k' = k
      · subst h
        simp only [if_true] at ih
        simp [umErase, h0, ih]
      · have h' : ¬ k = k' := fun x => h x.symm
        simp only [h, if_false] at ih
        simp [umErase, umFind, h0, h, h', ih]
    · by_cases h : k' = k
      · subst h
        simp only [if_true] at ih
        simp [umErase, umFind, h0, ih]
      · simp only [h, if_false] at ih
        simp [umErase, umFind, h0, h, ih]

theorem umFind_mem {β : Type} (m : List (Nat × β)) (k : Nat) (b : β)
    (h : umFind m k = some b) : (k, b) ∈ m := by
  induction m with
  | nil => simp [umFind] at h
  | cons p rest ih =>
    obtain ⟨k0, b0⟩ := p
    by_cases h0 : k0 = k
    · simp [umFind, h0] at h
      simp [h0, h]
    · simp [umFind, h0] at h
      exact List.mem_cons_of_mem _ (ih h)

theorem vecAt_of_getElem? {α : Type} (v : List α) (i : Nat) (a : α) (h : v[i]? = some a) :
    vecAt v i = .ok a := by
  simp [vecAt, h]


namespace Storage

variable {T : Type}

/-! ## Lemmas on `Storage` -/

theorem inv_empty : (Storage.empty : Storage T).Inv := by
  refine ⟨?_, rfl, List.nodup_nil⟩
  intro e i h
  simp [Storage.empty, umFind] at h

theorem wf_empty : (Storage.empty : Storage T).WF := by
  refine ⟨inv_empty, ?_⟩
  intro e he
  simp [Storage.empty] at he

theorem contains_of_inv (s : Storage T) (h : s.Inv) (e : entity) :
    s.contains e = .ok (umFind s.sparse_ e).isSome := by
  unfold contains
  cases hf : umFind s.sparse_ e with
  | none => simp
  | some i =>
    obtain ⟨_, h2, h3⟩ := h.1 e i hf
    simp [h2, vecAt, h3]

theorem emplace_of_absent (s : Storage T) (h : s.Inv) (e : entity) (v : T)
    (hf : umFind s.sparse_ e = none) :
    s.emplace e v = .ok
      { sparse_ := umAssign s.sparse_ e s.dense_.length
        entities_ := s.entities_ ++ [e]
        dense_ := s.dense_ ++ [v] } := by
  unfold emplace
  rw [contains_of_inv s h e, hf]
  rfl

theorem emplace_of_present (s : Storage T) (h : s.Inv) (e : entity) (v : T) (i : Nat)
    (hf : umFind s.sparse_ e = some i) :
    s.emplace e v = .error .assertion := by
  unfold emplace
  rw [contains_of_inv s h e, hf]
  rfl

theorem wf_emplace (s s1 : Storage T) (h : s.WF) (e : entity) (v : T)
    (he : s.emplace e v = .ok s1) : s1.WF := by
  obtain ⟨hinv, hconv⟩ := h
  cases hf : umFind s.sparse_ e with
  | some i =>
    rw [emplace_of_present s hinv e v i hf] at he
    cases he
  | none =>
    rw [emplace_of_absent s hinv e v hf] at he
    cases he
    obtain ⟨h1, h2, h3⟩ := hinv
    have hnot : e ∉ s.entities_ := by
      intro hmem
      obtain ⟨i, hi⟩ := hconv e hmem
      rw [hf] at hi
      cases hi
    refine ⟨⟨?_, ?_, ?_⟩, ?_⟩
    · intro e' i hi
      simp only [umFind_assign] at hi
      by_cases hee : e' = e
      · subst hee
        simp only [if_true, Option.some.injEq] at hi
        subst hi
        simp [h2]
      · simp only [hee, if_false] at hi
        obtain ⟨a, b, c⟩ := h1 e' i hi
        refine ⟨by simp; omega, by simp; omega, ?_⟩
        rw [List.getElem?_append_left a]
        exact c
    · simp [h2]
    · rw [List.nodup_append]
      refine ⟨h3, List.nodup_singleton e, ?_⟩
      intro x hx hx'
      simp only [List.mem_singleton] at hx'
      subst hx'
      exact hnot hx
    · intro e' he'
      simp only [umFind_assign]
      by_cases hee : e' = e
      · simp [hee]
      · simp only [hee, if_false]
        simp only [List.mem_append, List.mem_singleton, hee, or_false] at he'
        exact hconv e' he'

end Storage


namespace Storage

variable {T : Type}

theorem remove_of_absent (s : Storage T) (e : entity) (hf : umFind s.sparse_ e = none) :
    s.remove e = .ok s := by
  simp [remove, hf]

theorem remove_last (s : Storage T) (h : s.Inv) (e : entity) (idx : Nat)
    (hf : umFind s.sparse_ e = some idx) (hl : idx = s.entities_.length - 1) :
    s.remove e = .ok
      { sparse_ := umErase s.sparse_ e
        entities_ := s.entities_.dropLast
        dense_ := s.dense_.dropLast } := by
  obtain ⟨h1, h2, _⟩ := h
  obtain ⟨a, b, _⟩ := h1 e idx hf
  have hd : s.dense_.length ≠ 0 := by omega
  have he : s.entities_.length ≠ 0 := by omega
  have hl' : idx = s.dense_.length - 1 := by omega
  simp [remove, hf, hd, hl', Storage.dropLast, vecPop, he]

theorem remove_inner (s : Storage T) (h : s.Inv) (e : entity) (idx : Nat) (m : entity) (v : T)
    (hf : umFind s.sparse_ e = some idx) (hl : idx ≠ s.entities_.length - 1)
    (hm : s.entities_[s.entities_.length - 1]? = some m)
    (hv : s.dense_[s.entities_.length - 1]? = some v) :
    s.remove e = .ok
      { sparse_ := umErase (umAssign s.sparse_ m idx) e
        entities_ := (s.entities_.set idx m).dropLast
        dense_ := (s.dense_.set idx v).dropLast } := by
  obtain ⟨h1, h2, _⟩ := h
  obtain ⟨a, b, _⟩ := h1 e idx hf
  have hd : s.dense_.length ≠ 0 := by omega
  have he : s.entities_.length ≠ 0 := by omega
  have hl' : idx ≠ s.dense_.length - 1 := by omega
  have hv' : s.dense_[s.dense_.length - 1]? = some v := by rw [← h2]; exact hv
  have hm' : s.entities_[s.dense_.length - 1]? = some m := by rw [← h2]; exact hm
  simp [remove, hf, hd, hl', moveLast, vecAt, vecSet, hv', hm', a, b, Storage.dropLast, vecPop, he]

theorem last_slot (s : Storage T) (h : s.Inv) (e : entity) (idx : Nat)
    (hf : umFind s.sparse_ e = some idx) :
    ∃ (m : entity) (v : T), s.entities_[s.entities_.length - 1]? = some m ∧
      s.dense_[s.entities_.length - 1]? = some v := by
  obtain ⟨h1, h2, _⟩ := h
  obtain ⟨a, b, _⟩ := h1 e idx hf
  have ha : s.entities_.length - 1 < s.entities_.length := by omega
  have hb : s.entities_.length - 1 < s.dense_.length := by omega
  exact ⟨s.entities_[s.entities_.length - 1], s.dense_[s.entities_.length - 1],
    List.getElem?_eq_getElem ha, List.getElem?_eq_getElem hb⟩

end Storage


theorem getElem?_set_dropLast {α : Type} (l : List α) (i j : Nat) (m : α)
    (hj : j < l.length - 1) :
    ((l.set i m).dropLast)[j]? = if i = j then some m else l[j]? := by
  rw [List.getElem?_dropLast, List.length_set, if_pos hj, List.getElem?_set]
  by_cases h : i = j
  · have : i < l.length := by omega
    simp [h, this]
    omega
  · simp [h]

theorem nodup_set_dropLast {α : Type} (l : List α) (hnd : l.Nodup) (i : Nat) (m : α)
    (hm : l[l.length - 1]? = some m) : ((l.set i m).dropLast).Nodup := by
  rw [List.nodup_iff_getElem?_ne_getElem?] at hnd ⊢
  intro a b hab hb
  rw [List.length_dropLast, List.length_set] at hb
  rw [getElem?_set_dropLast l i a m (by omega), getElem?_set_dropLast l i b m hb]
  by_cases ha : i = a
  · have hb' : ¬ i = b := by omega
    rw [if_pos ha, if_neg hb', ← hm]
    exact fun x => hnd b (l.length - 1) hb (by omega) x.symm
  · by_cases hb' : i = b
    · rw [if_neg ha, if_pos hb', ← hm]
      exact hnd a (l.length - 1) (by omega) (by omega)
    · rw [if_neg ha, if_neg hb']
      exact hnd a b hab (by omega)

theorem nodup_index_unique {α : Type} (l : List α) (hnd : l.Nodup) (i j : Nat) (a : α)
    (hi : l[i]? = some a) (hj : l[j]? = some a) : i = j := by
  rw [List.nodup_iff_getElem?_ne_getElem?] at hnd
  have li : i < l.length := by
    rcases Nat.lt_or_ge i l.length with h | h
    · exact h
    · rw [List.getElem?_eq_none h] at hi
      cases hi
  have lj : j < l.length := by
    rcases Nat.lt_or_ge j l.length with h | h
    · exact h
    · rw [List.getElem?_eq_none h] at hj
      cases hj
  rcases Nat.lt_trichotomy i j with h | h | h
  · exact absurd (hi.trans hj.symm) (hnd i j h lj)
  · exact h
  · exact absurd (hj.trans hi.symm) (hnd j i h li)

namespace Storage

variable {T : Type}

theorem inv_remove (s s1 : Storage T) (h : s.Inv) (e : entity)
    (hr : s.remove e = .ok s1) : s1.Inv := by
  cases hf : umFind s.sparse_ e with
  | none =>
    rw [remove_of_absent s e hf] at hr
    cases hr
    exact h
  | some idx =>
    obtain ⟨m, v, hm, hv⟩ := last_slot s h e idx hf
    obtain ⟨h1, h2, h3⟩ := h
    obtain ⟨a, b, c⟩ := h1 e idx hf
    by_cases hl : idx = s.entities_.length - 1
    · rw [remove_last s ⟨h1, h2, h3⟩ e idx hf hl] at hr
      cases hr
      refine ⟨?_, by simp [h2], h3.sublist (List.dropLast_sublist _)⟩
      intro e' i hi
      simp only [umFind_erase] at hi
      by_cases hee : e' = e
      · simp [hee] at hi
      · simp only [hee, if_false] at hi
        obtain ⟨a', b', c'⟩ := h1 e' i hi
        have hne : i ≠ idx := by
          intro hx
          subst hx
          rw [c] at c'
          exact hee (Option.some.inj c').symm
        have hlt : i < s.entities_.length - 1 := by omega
        refine ⟨by simp; omega, by simp; omega, ?_⟩
        rw [List.getElem?_dropLast, if_pos hlt]
        exact c'
    · rw [remove_inner s ⟨h1, h2, h3⟩ e idx m v hf hl hm hv] at hr
      cases hr
      have hme : m ≠ e := by
        intro hx
        subst hx
        exact hl (nodup_index_unique _ h3 _ _ _ c hm)
      refine ⟨?_, by simp [h2], nodup_set_dropLast _ h3 idx m hm⟩
      intro e' i hi
      simp only [umFind_erase, umFind_assign] at hi
      by_cases hee : e' = e
      · simp [hee] at hi
      · simp only [hee, if_false] at hi
        by_cases hem : e' = m
        · simp only [hem, if_true, Option.some.injEq] at hi
          subst hi
          subst hem
          have hlt : idx < s.entities_.length - 1 := by omega
          refine ⟨by simp; omega, by simp; omega, ?_⟩
          rw [getElem?_set_dropLast _ _ _ _ hlt]
          simp
        · simp only [hem, if_false] at hi
          obtain ⟨a', b', c'⟩ := h1 e' i hi
          have hne : i ≠ idx := by
            intro hx
            subst hx
            rw [c] at c'
            exact hee (Option.some.inj c').symm
          have hne2 : i ≠ s.entities_.length - 1 := by
            intro hx
            subst hx
            rw [hm] at c'
            exact hem (Option.some.inj c').symm
          have hlt : i < s.entities_.length - 1 := by omega
          refine ⟨by simp; omega, by simp; omega, ?_⟩
          rw [getElem?_set_dropLast _ _ _ _ hlt, if_neg (fun x => hne x.symm)]
          exact c'

end Storage


theorem getElem?_lt_of_some {α : Type} (l : List α) (j : Nat) (a : α) (h : l[j]? = some a) :
    j < l.length := by
  rcases Nat.lt_or_ge j l.length with h' | h'
  · exact h'
  · rw [List.getElem?_eq_none h'] at h
    cases h

namespace Storage

variable {T : Type}

theorem wf_remove (s s1 : Storage T) (h : s.WF) (e : entity)
    (hr : s.remove e = .ok s1) : s1.WF := by
  refine ⟨inv_remove s s1 h.1 e hr, ?_⟩
  obtain ⟨hinv, hconv⟩ := h
  cases hf : umFind s.sparse_ e with
  | none =>
    rw [remove_of_absent s e hf] at hr
    cases hr
    exact hconv
  | some idx =>
    obtain ⟨m, v, hm, hv⟩ := last_slot s hinv e idx hf
    obtain ⟨a, b, c⟩ := hinv.1 e idx hf
    have h3 := hinv.2.2
    by_cases hl : idx = s.entities_.length - 1
    · rw [remove_last s hinv e idx hf hl] at hr
      cases hr
      intro e' he'
      obtain ⟨j, hj⟩ := List.mem_iff_getElem?.mp he'
      have hjlt := getElem?_lt_of_some _ _ _ hj
      rw [List.length_dropLast] at hjlt
      rw [List.getElem?_dropLast, if_pos hjlt] at hj
      have hee : e' ≠ e := by
        intro hx
        subst hx
        have := nodup_index_unique _ h3 _ _ _ c hj
        omega
      simp only [umFind_erase, hee, if_false]
      exact hconv e' (List.mem_iff_getElem?.mpr ⟨j, hj⟩)
    · rw [remove_inner s hinv e idx m v hf hl hm hv] at hr
      cases hr
      have hme : m ≠ e := by
        intro hx
        subst hx
        exact hl (nodup_index_unique _ h3 _ _ _ c hm)
      intro e' he'
      obtain ⟨j, hj⟩ := List.mem_iff_getElem?.mp he'
      have hjlt := getElem?_lt_of_some _ _ _ hj
      rw [List.length_dropLast, List.length_set] at hjlt
      rw [getElem?_set_dropLast _ _ _ _ hjlt] at hj
      by_cases hij : idx = j
      · rw [if_pos hij] at hj
        cases hj
        simp [umFind_erase, umFind_assign, hme]
      · rw [if_neg hij] at hj
        have hee : e' ≠ e := by
          intro hx
          subst hx
          exact hij (nodup_index_unique _ h3 _ _ _ c hj)
        simp only [umFind_erase, umFind_assign, hee, if_false]
        by_cases hem : e' = m
        · simp [hem]
        · simp only [hem, if_false]
          exact hconv e' (List.mem_iff_getElem?.mpr ⟨j, hj⟩)

theorem remove_defined (s : Storage T) (h : s.Inv) (e : entity) :
    ∃ s1, s.remove e = .ok s1 := by
  cases hf : umFind s.sparse_ e with
  | none => exact ⟨s, remove_of_absent s e hf⟩
  | some idx =>
    obtain ⟨m, v, hm, hv⟩ := last_slot s h e idx hf
    by_cases hl : idx = s.entities_.length - 1
    · exact ⟨_, remove_last s h e idx hf hl⟩
    · exact ⟨_, remove_inner s h e idx m v hf hl hm hv⟩

end Storage

theorem StoreOp.wf_apply {T : Type} (s s1 : Storage T) (h : s.WF) (op : StoreOp T)
    (hr : StoreOp.apply s op = .ok s1) : s1.WF := by
  cases op with
  | emplace e v => exact Storage.wf_emplace s s1 h e v hr
  | remove e => exact Storage.wf_remove s s1 h e hr

theorem StoreOp.wf_run {T : Type} (ops : List (StoreOp T)) (s s1 : Storage T) (h : s.WF)
    (hr : StoreOp.run s ops = .ok s1) : s1.WF := by
  induction ops generalizing s with
  | nil =>
    simp only [StoreOp.run, Except.ok.injEq] at hr
    subst hr
    exact h
  | cons op ops ih =>
    simp only [StoreOp.run] at hr
    cases ha : StoreOp.apply s op with
    | error f => simp [ha] at hr
    | ok s2 =>
      simp only [ha] at hr
      exact ih s2 (StoreOp.wf_apply s s2 h op ha) hr

theorem StoreOp.apply_fault {T : Type} (s : Storage T) (h : s.WF) (op : StoreOp T) (f : Fault)
    (hr : StoreOp.apply s op = .error f) :
    f = .assertion ∧ ∃ e v, op = .emplace e v ∧ s.contains e = .ok true := by
  cases op with
  | emplace e v =>
    cases hf : umFind s.sparse_ e with
    | none =>
      simp only [StoreOp.apply] at hr
      rw [Storage.emplace_of_absent s h.1 e v hf] at hr
      cases hr
    | some i =>
      simp only [StoreOp.apply] at hr
      rw [Storage.emplace_of_present s h.1 e v i hf] at hr
      cases hr
      refine ⟨rfl, e, v, rfl, ?_⟩
      rw [Storage.contains_of_inv s h.1 e, hf]
      rfl
  | remove e =>
    obtain ⟨s1, hs1⟩ := Storage.remove_defined s h.1 e
    simp only [StoreOp.apply] at hr
    rw [hs1] at hr
    cases hr


theorem StoreOp.run_take {T : Type} (ops : List (StoreOp T)) (s : Storage T) (h : s.WF)
    (hp : StoreOp.respects s ops = true) (k : Nat) :
    ∃ s1, StoreOp.run s (ops.take k) = .ok s1 ∧ s1.WF := by
  induction ops generalizing s k with
  | nil => exact ⟨s, by simp [StoreOp.run], h⟩
  | cons op ops ih =>
    cases k with
    | zero => exact ⟨s, by simp [StoreOp.run], h⟩
    | succ k =>
      simp only [StoreOp.respects, Bool.and_eq_true] at hp
      obtain ⟨hp1, hp2⟩ := hp
      cases ha : StoreOp.apply s op with
      | error f =>
        obtain ⟨_, e, v, hop, hc⟩ := StoreOp.apply_fault s h op f ha
        subst hop
        simp [hc] at hp1
      | ok s2 =>
        simp only [ha] at hp2
        obtain ⟨s3, h3, w3⟩ := ih s2 (StoreOp.wf_apply s s2 h op ha) hp2 k
        exact ⟨s3, by simp [StoreOp.run, ha, h3], w3⟩

/-- C1: along every sequence of `emplace` and `remove` calls on an empty store in which each
`emplace e` is applied only while `contains e` is false, every call returns, and after each
call (after every number `k` of calls) the store satisfies the sparse/dense invariant: each
sparse entry is a valid index of both dense arrays and points at its own entity, the dense
arrays have equal length, and no entity is twice in the dense entity array. -/
theorem Storage.invariant_after_each_call {T : Type} (ops : List (StoreOp T))
    (hp : StoreOp.respects Storage.empty ops = true) (k : Nat) :
    ∃ s : Storage T, StoreOp.run Storage.empty (ops.take k) = .ok s ∧
      (∀ e i, umFind s.sparse_ e = some i →
        i < s.entities_.length ∧ i < s.dense_.length ∧ s.entities_[i]? = some e) ∧
      s.entities_.length = s.dense_.length ∧ s.entities_.Nodup := by
  obtain ⟨s, hs, hw⟩ := StoreOp.run_take ops Storage.empty Storage.wf_empty hp k
  exact ⟨s, hs, hw.1⟩

/-- C1 at a run of five calls: the precondition holds along it, and the store after the
fourth call satisfies the invariant. -/
theorem Storage.invariant_after_each_call_witness :
    StoreOp.respects (Storage.empty : Storage Nat)
        [.emplace 1 10, .emplace 2 20, .emplace 3 30, .remove 1, .emplace 1 11] = true ∧
      ∃ s : Storage Nat,
        StoreOp.run Storage.empty
          (([.emplace 1 10, .emplace 2 20, .emplace 3 30, .remove 1, .emplace 1 11] :
            List (StoreOp Nat)).take 4) = .ok s ∧
        (∀ e i, umFind s.sparse_ e = some i →
          i < s.entities_.length ∧ i < s.dense_.length ∧ s.entities_[i]? = some e) ∧
        s.entities_.length = s.dense_.length ∧ s.entities_.Nodup :=
  ⟨by decide, Storage.invariant_after_each_call _ (by decide) 4⟩

/-- C2: in a store of size `n` that satisfies the sparse/dense invariant, removing an entity `e`
held at a dense slot `i < n - 1` returns a store of size `n - 1` in which the entity `m` that
was at slot `n - 1` is at slot `i` of the dense entity array, has sparse index `i` and has its
own value `v` at slot `i`; every other slot below `n - 1` holds the entity and value it held
before, every entity other than `e` and `m` keeps its sparse index, and `e` has none. -/
theorem Storage.remove_swaps_last {T : Type} (s : Storage T) (h : s.Inv) (e : entity) (i : Nat)
    (hf : umFind s.sparse_ e = some i) (hi : i < s.entities_.length - 1) :
    ∃ (s1 : Storage T) (m : entity) (v : T), s.remove e = .ok s1 ∧
      s.entities_[s.entities_.length - 1]? = some m ∧
      s.dense_[s.dense_.length - 1]? = some v ∧
      s1.entities_.length = s.entities_.length - 1 ∧
      s1.dense_.length = s.dense_.length - 1 ∧
      s1.entities_[i]? = some m ∧ umFind s1.sparse_ m = some i ∧ s1.dense_[i]? = some v ∧
      s1.get m = .ok v ∧
      (∀ j, j < s.entities_.length - 1 → j ≠ i →
        s1.entities_[j]? = s.entities_[j]? ∧ s1.dense_[j]? = s.dense_[j]?) ∧
      (∀ x, x ≠ e → x ≠ m → umFind s1.sparse_ x = umFind s.sparse_ x) ∧
      umFind s1.sparse_ e = none := by
  obtain ⟨m, v, hm, hv⟩ := Storage.last_slot s h e i hf
  have hl : i ≠ s.entities_.length - 1 := by omega
  have h2 := h.2.1
  have c := (h.1 e i hf).2.2
  have hme : m ≠ e := by
    intro hx
    subst hx
    exact hl (nodup_index_unique _ h.2.2 _ _ _ c hm)
  have hi' : i < s.dense_.length - 1 := by omega
  refine ⟨_, m, v, Storage.remove_inner s h e i m v hf hl hm hv, hm, by rw [← h2]; exact hv,
    by simp, by simp, ?_, ?_, ?_, ?_, ?_, ?_, ?_⟩
  · simp [getElem?_set_dropLast _ _ _ _ hi]
  · simp [umFind_erase, umFind_assign, hme]
  · simp [getElem?_set_dropLast _ _ _ _ hi']
  · simp [Storage.get, umFind_erase, umFind_assign, hme, vecAt, getElem?_set_dropLast _ _ _ _ hi']
  · intro j hj hji
    have hj' : j < s.dense_.length - 1 := by omega
    have hij : ¬ i = j := fun x => hji x.symm
    simp [getElem?_set_dropLast _ _ _ _ hj, getElem?_set_dropLast _ _ _ _ hj', hij]
  · intro x hxe hxm
    simp [umFind_erase, umFind_assign, hxe, hxm]
  · simp [umFind_erase]

/-- C2 at the store holding entities 1, 2, 3 with values 10, 20, 30, from which 1 is removed. -/
theorem Storage.remove_swaps_last_witness :
    (⟨[(1, 0), (2, 1), (3, 2)], [1, 2, 3], [10, 20, 30]⟩ : Storage Nat).Inv ∧
    ∃ (s1 : Storage Nat) (m : entity) (v : Nat),
      (⟨[(1, 0), (2, 1), (3, 2)], [1, 2, 3], [10, 20, 30]⟩ : Storage Nat).remove 1 = .ok s1 ∧
      ([1, 2, 3] : List entity)[3 - 1]? = some m ∧
      ([10, 20, 30] : List Nat)[3 - 1]? = some v ∧
      s1.entities_.length = 3 - 1 ∧
      s1.dense_.length = 3 - 1 ∧
      s1.entities_[0]? = some m ∧ umFind s1.sparse_ m = some 0 ∧ s1.dense_[0]? = some v ∧
      s1.get m = .ok v ∧
      (∀ j, j < 3 - 1 → j ≠ 0 →
        s1.entities_[j]? = ([1, 2, 3] : List entity)[j]? ∧
          s1.dense_[j]? = ([10, 20, 30] : List Nat)[j]?) ∧
      (∀ x, x ≠ 1 → x ≠ m → umFind s1.sparse_ x = umFind [(1, 0), (2, 1), (3, 2)] x) ∧
      umFind s1.sparse_ 1 = none := by
  have hinv : (⟨[(1, 0), (2, 1), (3, 2)], [1, 2, 3], [10, 20, 30]⟩ : Storage Nat).Inv := by
    refine ⟨?_, rfl, by decide⟩
    intro e i hi
    simp only [umFind] at hi
    split at hi
    · cases hi
      subst_vars
      decide
    · split at hi
      · cases hi
        subst_vars
        decide
      · split at hi
        · cases hi
          subst_vars
          decide
        · cases hi
  exact ⟨hinv, Storage.remove_swaps_last _ hinv 1 0 (by decide) (by decide)⟩


namespace EntityPool

/-! ## Lemmas on `EntityPool` -/

theorem create_of_empty (p : EntityPool) (h : p.free_ = []) :
    p.create = ((p.last_ + 1) % entityRange, ⟨(p.last_ + 1) % entityRange, []⟩) := by
  simp [create, h]

theorem create_of_concat (p : EntityPool) (l : List entity) (e : entity)
    (h : p.free_ = l ++ [e]) : p.create = (e, ⟨p.last_, l⟩) := by
  simp [create, h]

theorem free_cases (p : EntityPool) :
    p.free_ = [] ∨ ∃ l e, p.free_ = l ++ [e] := by
  rcases List.eq_nil_or_concat p.free_ with h | ⟨l, e, h⟩
  · exact Or.inl h
  · exact Or.inr ⟨l, e, by simpa using h⟩

theorem isValid_iff (p : EntityPool) (e : entity) :
    p.isValid e = true ↔ e ≠ null ∧ e ≤ p.last_ ∧ e ∉ p.free_ := by
  simp [isValid, isFree, and_assoc]

theorem freeOk_fresh : fresh.FreeOk := by
  simp [FreeOk, fresh]

theorem freeOk_create (p : EntityPool) (h : p.FreeOk) : p.create.2.FreeOk := by
  rcases free_cases p with h0 | ⟨l, e, h0⟩
  · rw [create_of_empty p h0]
    simp [FreeOk]
  · rw [create_of_concat p l e h0]
    obtain ⟨h1, h2⟩ := h
    rw [h0] at h1 h2
    refine ⟨(List.nodup_append.mp h1).1, ?_⟩
    intro x hx
    exact h2 x (List.mem_append_left _ hx)

theorem freeOk_destroy (p : EntityPool) (h : p.FreeOk) (e : entity)
    (hv : p.isValid e = true) : (p.destroy e).FreeOk := by
  obtain ⟨hn, hl, hf⟩ := (isValid_iff p e).mp hv
  obtain ⟨h1, h2⟩ := h
  simp only [destroy, hn, if_false, FreeOk]
  refine ⟨?_, ?_⟩
  · rw [List.nodup_append]
    refine ⟨h1, List.nodup_singleton e, ?_⟩
    intro x hx hx'
    simp only [List.mem_singleton] at hx'
    subst hx'
    exact hf hx
  · intro x hx
    simp only [List.mem_append, List.mem_singleton] at hx
    rcases hx with hx | hx
    · exact h2 x hx
    · subst hx
      exact ⟨hn, hl⟩

theorem reachable_freeOk (p : EntityPool) (h : p.Reachable) : p.FreeOk := by
  induction h with
  | fresh => exact freeOk_fresh
  | create _ ih => exact freeOk_create _ ih
  | destroy e _ hv ih => exact freeOk_destroy _ ih e hv

/-- Below the end of the identity range, the entity `create` returns is invalid before the
call and valid after it, and the validity of every other entity is unchanged. -/
theorem isValid_create (p : EntityPool) (h : p.FreeOk)
    (hlt : p.free_ = [] → p.last_ + 1 < entityRange) (x : entity) :
    p.isValid p.create.1 = false ∧
      (p.create.2.isValid x = true ↔ x = p.create.1 ∨ p.isValid x = true) := by
  rcases free_cases p with h0 | ⟨l, e, h0⟩
  · have hmod : (p.last_ + 1) % entityRange = p.last_ + 1 := Nat.mod_eq_of_lt (hlt h0)
    rw [create_of_empty p h0, hmod]
    refine ⟨?_, ?_⟩
    · simp [isValid, isFree]
    · simp only [isValid_iff, h0, null]
      simp only [List.not_mem_nil, not_false_eq_true, and_true]
      constructor
      · rintro ⟨a, b⟩
        by_cases hx : x = p.last_ + 1
        · exact Or.inl hx
        · exact Or.inr ⟨a, Nat.le_of_lt_succ (Nat.lt_of_le_of_ne b hx)⟩
      · rintro (hx | ⟨a, b⟩)
        · subst hx
          exact ⟨Nat.succ_ne_zero _, Nat.le_refl _⟩
        · exact ⟨a, Nat.le_succ_of_le b⟩
  · rw [create_of_concat p l e h0]
    obtain ⟨h1, h2⟩ := h
    rw [h0] at h1 h2
    have hel : e ∉ l := by
      intro hx
      exact (List.nodup_append.mp h1).2.2 hx (List.mem_singleton_self e)
    obtain ⟨he0, hel2⟩ := h2 e (by simp)
    refine ⟨?_, ?_⟩
    · simp [isValid, isFree, h0]
    · simp only [isValid_iff, h0, List.mem_append, List.mem_singleton, not_or]
      constructor
      · rintro ⟨a, b, c⟩
        by_cases hxe : x = e
        · exact Or.inl hxe
        · exact Or.inr ⟨a, b, c, hxe⟩
      · rintro (hx | ⟨a, b, c, _⟩)
        · subst hx
          exact ⟨he0, hel2, hel⟩
        · exact ⟨a, b, c⟩

theorem isValid_destroy (p : EntityPool) (e : entity) (hv : p.isValid e = true) (x : entity) :
    (p.destroy e).isValid x = true ↔ x ≠ e ∧ p.isValid x = true := by
  obtain ⟨hn, hl, hf⟩ := (isValid_iff p e).mp hv
  simp only [isValid_iff, destroy, hn, if_false, List.mem_append, List.mem_singleton, not_or]
  tauto

theorem createN_fresh (n : Nat) (k : Nat) (h : k + n < entityRange) :
    createN n ⟨k, []⟩ = ⟨k + n, []⟩ := by
  induction n generalizing k with
  | zero => rfl
  | succ n ih =>
    have hmod : (k + 1) % entityRange = k + 1 := Nat.mod_eq_of_lt (by omega)
    simp only [createN, create_of_empty ⟨k, []⟩ rfl]
    rw [hmod, ih (k + 1) (by omega)]
    rw [Nat.add_assoc, Nat.add_comm 1 n]

theorem reachable_createN (n : Nat) (p : EntityPool) (h : p.Reachable) :
    (createN n p).Reachable := by
  induction n generalizing p with
  | zero => exact h
  | succ n ih => exact ih _ (Reachable.create h)

theorem reachableAny_createN (n : Nat) (p : EntityPool) (h : p.ReachableAny) :
    (createN n p).ReachableAny := by
  induction n generalizing p with
  | zero => exact h
  | succ n ih => exact ih _ (ReachableAny.create h)

end EntityPool


namespace EntityPool

theorem create_last_le (p : EntityPool) : p.create.2.last_ ≤ p.last_ + 1 := by
  rcases free_cases p with h0 | ⟨l, e, h0⟩
  · rw [create_of_empty p h0]
    exact Nat.mod_le _ _
  · rw [create_of_concat p l e h0]
    exact Nat.le_succ _

theorem destroy_last (p : EntityPool) (e : entity) : (p.destroy e).last_ = p.last_ := by
  unfold destroy
  split <;> rfl

theorem createsDistinct_of_valid (ops : List PoolOp) (p : EntityPool) (live : List entity)
    (hok : p.FreeOk) (hlive : ∀ x, x ∈ live ↔ p.isValid x = true)
    (hv : destroysValid p ops = true) (hb : p.last_ + PoolOp.creates ops < entityRange) :
    createsDistinct p live ops = true := by
  induction ops generalizing p live with
  | nil => rfl
  | cons op ops ih =>
    cases op with
    | create =>
      simp only [PoolOp.creates] at hb
      simp only [destroysValid] at hv
      have hlt : p.free_ = [] → p.last_ + 1 < entityRange := fun _ => by
        unfold entity at *
        omega
      have hfresh : p.create.1 ∉ live := by
        intro hx
        have h1 := (hlive _).mp hx
        rw [(isValid_create p hok hlt 0).1] at h1
        cases h1
      simp only [createsDistinct, Bool.and_eq_true, decide_eq_true_eq]
      refine ⟨hfresh, ih p.create.2 (p.create.1 :: live) (freeOk_create p hok) ?_ hv ?_⟩
      · intro x
        rw [(isValid_create p hok hlt x).2, List.mem_cons, hlive x]
      · have := create_last_le p
        unfold entity at *
        omega
    | destroy e =>
      simp only [PoolOp.creates] at hb
      simp only [destroysValid, Bool.and_eq_true] at hv
      simp only [createsDistinct]
      refine ih (p.destroy e) _ (freeOk_destroy p hok e hv.1) ?_ hv.2 ?_
      · intro x
        rw [isValid_destroy p e hv.1 x, List.mem_filter, hlive x]
        simp [and_comm]
      · rw [destroy_last]
        exact hb

theorem reachableAny_free_ne_null (p : EntityPool) (h : p.ReachableAny) : null ∉ p.free_ := by
  induction h with
  | fresh => simp [fresh]
  | @create q _ ih =>
    rcases free_cases q with h0 | ⟨l, e, h0⟩
    · rw [create_of_empty q h0]
      simp
    · rw [create_of_concat q l e h0]
      intro hx
      exact ih (by rw [h0]; exact List.mem_append_left _ hx)
  | @destroy q e _ ih =>
    unfold destroy
    split
    · exact ih
    · rename_i hne
      simp only [List.mem_append, List.mem_singleton, not_or]
      exact ⟨ih, fun hx => hne hx.symm⟩

/-- Below the end of the identity range `create` does not return the null entity. -/
theorem create_ne_null_below_range (p : EntityPool) (h : p.ReachableAny)
    (hlt : p.free_ = [] → p.last_ + 1 < entityRange) : p.create.1 ≠ null := by
  rcases free_cases p with h0 | ⟨l, e, h0⟩
  · rw [create_of_empty p h0, Nat.mod_eq_of_lt (hlt h0)]
    exact Nat.succ_ne_zero _
  · rw [create_of_concat p l e h0]
    intro hx
    have := reachableAny_free_ne_null p h
    rw [h0] at this
    exact this (List.mem_append_right _ (by simp [← hx]))

/-- Below the end of the identity range, in a state reached with valid `destroy` calls, the
free list is in order and `create` returns an entity invalid before and valid after. -/
theorem create_valid_below_range (p : EntityPool) (h : p.Reachable)
    (hlt : p.free_ = [] → p.last_ + 1 < entityRange) :
    p.FreeOk ∧ p.isValid p.create.1 = false ∧ p.create.2.isValid p.create.1 = true := by
  have hok := reachable_freeOk p h
  exact ⟨hok, (isValid_create p hok hlt 0).1,
    (isValid_create p hok hlt p.create.1).2.mpr (Or.inl rfl)⟩

end EntityPool

/-- C4 (as stated, refuted): after `create`, `destroy 1`, `destroy 1`, `create`, the entity 1 is
live, and the next `create` returns 1 again. -/
theorem EntityPool.create_repeats_live_entity :
    createsDistinct EntityPool.fresh []
      [.create, .destroy 1, .destroy 1, .create, .create] = false := by
  decide

/-- C4 (amended): along every sequence of `create` and `destroy` calls on a fresh pool in which
each `destroy e` is applied while `isValid e` holds and which has fewer than `2 ^ 32` calls of
`create`, every entity returned by `create` differs from every entity that is live at that
moment. -/
theorem EntityPool.create_distinct_from_live (ops : List PoolOp)
    (hv : destroysValid EntityPool.fresh ops = true)
    (hb : PoolOp.creates ops < 2 ^ 32) :
    createsDistinct EntityPool.fresh [] ops = true := by
  refine EntityPool.createsDistinct_of_valid ops EntityPool.fresh [] EntityPool.freeOk_fresh
    ?_ hv ?_
  · intro x
    simp [EntityPool.isValid, EntityPool.fresh, null]
  · simp only [EntityPool.fresh, null, entityRange]
    unfold entity at *
    omega

/-- C4 (amended) at a run with two valid `destroy` calls. -/
theorem EntityPool.create_distinct_from_live_witness :
    destroysValid EntityPool.fresh [.create, .create, .destroy 1, .create, .destroy 2] = true ∧
      PoolOp.creates [.create, .create, .destroy 1, .create, .destroy 2] < 2 ^ 32 ∧
      createsDistinct EntityPool.fresh []
        [.create, .create, .destroy 1, .create, .destroy 2] = true :=
  ⟨by decide, by decide,
    EntityPool.create_distinct_from_live
      [.create, .create, .destroy 1, .create, .destroy 2] (by decide) (by decide)⟩

/-- C5 (the code at the failing input): the state after `2 ^ 32 - 1` calls of `create` on a
fresh pool is reached without any `destroy`, its free list is empty, and `create` there returns
the null entity, for which `isValid` is false after the call. -/
theorem EntityPool.create_invalid_at_range_end :
    (EntityPool.createN (2 ^ 32 - 1) EntityPool.fresh).Reachable ∧
      EntityPool.createN (2 ^ 32 - 1) EntityPool.fresh = ⟨2 ^ 32 - 1, []⟩ ∧
      (EntityPool.create ⟨2 ^ 32 - 1, []⟩).1 = null ∧
      (EntityPool.create ⟨2 ^ 32 - 1, []⟩).2.isValid (EntityPool.create ⟨2 ^ 32 - 1, []⟩).1
        = false := by
  refine ⟨EntityPool.reachable_createN _ _ EntityPool.Reachable.fresh, ?_, ?_, ?_⟩
  · have h := EntityPool.createN_fresh (2 ^ 32 - 1) 0 (by decide)
    simpa [EntityPool.fresh, null] using h
  · decide
  · decide

/-- C6: in every pool state, with a non-empty free list `create` returns the last element of
the free list, removes exactly that element and leaves `last_` unchanged; with an empty free
list it returns the new value of `last_`, which is the old one incremented by one in 32-bit
arithmetic (so `last_ + 1` below `2 ^ 32`), and the free list stays empty. -/
theorem EntityPool.create_pops_or_increments (p : EntityPool) :
    (∀ l e, p.free_ = l ++ [e] →
        p.free_.getLast? = some e ∧ p.create.1 = e ∧ p.create.2.free_ = l ∧
          p.create.2.last_ = p.last_) ∧
      (p.free_ = [] →
        p.create.1 = p.create.2.last_ ∧ p.create.2.last_ = (p.last_ + 1) % 2 ^ 32 ∧
          p.create.2.free_ = [] ∧ (p.last_ + 1 < 2 ^ 32 → p.create.2.last_ = p.last_ + 1)) := by
  refine ⟨?_, ?_⟩
  · intro l e h
    rw [EntityPool.create_of_concat p l e h]
    simp [h]
  · intro h
    rw [EntityPool.create_of_empty p h]
    refine ⟨rfl, rfl, rfl, fun hlt => Nat.mod_eq_of_lt hlt⟩

/-- C6 at a pool with free list `[2, 1]` and at a pool with an empty free list. -/
theorem EntityPool.create_pops_or_increments_witness :
    ((⟨3, [2, 1]⟩ : EntityPool).free_.getLast? = some 1 ∧
        (⟨3, [2, 1]⟩ : EntityPool).create.1 = 1 ∧
        (⟨3, [2, 1]⟩ : EntityPool).create.2.free_ = [2] ∧
        (⟨3, [2, 1]⟩ : EntityPool).create.2.last_ = 3) ∧
      ((⟨3, []⟩ : EntityPool).create.1 = (⟨3, []⟩ : EntityPool).create.2.last_ ∧
        (⟨3, []⟩ : EntityPool).create.2.last_ = (3 + 1) % 2 ^ 32 ∧
        (⟨3, []⟩ : EntityPool).create.2.free_ = [] ∧
        (3 + 1 < 2 ^ 32 → (⟨3, []⟩ : EntityPool).create.2.last_ = 3 + 1)) :=
  ⟨(EntityPool.create_pops_or_increments ⟨3, [2, 1]⟩).1 [2] 1 rfl,
    (EntityPool.create_pops_or_increments ⟨3, []⟩).2 rfl⟩

/-- C7 (the code at the failing input): the state after `2 ^ 32 - 1` calls of `create` on a
fresh pool is reachable, and the next `create` returns the null entity 0. -/
theorem EntityPool.create_returns_null_at_range_end :
    (EntityPool.createN (2 ^ 32 - 1) EntityPool.fresh).ReachableAny ∧
      (EntityPool.createN (2 ^ 32 - 1) EntityPool.fresh).create.1 = null := by
  refine ⟨EntityPool.reachableAny_createN _ _ EntityPool.ReachableAny.fresh, ?_⟩
  have h := EntityPool.createN_fresh (2 ^ 32 - 1) 0 (by decide)
  have h' : EntityPool.createN (2 ^ 32 - 1) EntityPool.fresh = ⟨2 ^ 32 - 1, []⟩ := by
    simpa [EntityPool.fresh, null] using h
  rw [h']
  decide


/-! ## Lemmas on `Registry` -/

theorem umFind_append_singleton {β : Type} (m : List (Nat × β)) (k : Nat) (b : β) (k' : Nat) :
    umFind (m ++ [(k, b)]) k' =
      match umFind m k' with
      | some x => some x
      | none => if k = k' then some b else none := by
  induction m with
  | nil => simp [umFind]
  | cons p rest ih =>
    obtain ⟨k0, b0⟩ := p
    by_cases h0 : k0 = k'
    · simp [umFind, h0]
    · simp [umFind, h0, ih]

theorem mem_umAssign {β : Type} (m : List (Nat × β)) (k : Nat) (b : β) (p : Nat × β)
    (h : p ∈ umAssign m k b) : p = (k, b) ∨ p ∈ m := by
  induction m with
  | nil =>
    simp only [umAssign, List.mem_singleton] at h
    exact Or.inl h
  | cons q rest ih =>
    obtain ⟨k0, b0⟩ := q
    by_cases h0 : k0 = k
    · simp only [umAssign, h0, if_true, List.mem_cons] at h
      rcases h with h | h
      · exact Or.inl h
      · exact Or.inr (List.mem_cons_of_mem _ h)
    · simp only [umAssign, h0, if_false, List.mem_cons] at h
      rcases h with h | h
      · exact Or.inr (by rw [h]; exact List.mem_cons_self _ _)
      · rcases ih h with h | h
        · exact Or.inl h
        · exact Or.inr (List.mem_cons_of_mem _ h)

namespace Storage

variable {T : Type}

theorem check_inv (s : Storage T) (h : s.check = true) : s.Inv := by
  simp only [check, Bool.and_eq_true, List.all_eq_true, decide_eq_true_eq] at h
  obtain ⟨⟨h1, h2⟩, h3⟩ := h
  refine ⟨?_, h2, h3⟩
  intro e i hf
  have h4 := h1 (e, i) (umFind_mem _ _ _ hf)
  exact ⟨h4.1.1, h4.1.2, h4.2⟩

theorem remove_erases (s s1 : Storage T) (e : entity) (hr : s.remove e = .ok s1) :
    umFind s1.sparse_ e = none := by
  unfold remove at hr
  cases hf : umFind s.sparse_ e with
  | none =>
    simp only [hf] at hr
    cases hr
    exact hf
  | some idx =>
    simp only [hf] at hr
    have key : ∀ s2 : Storage T, s2.dropLast e = .ok s1 → umFind s1.sparse_ e = none := by
      intro s2 h2
      unfold Storage.dropLast at h2
      split at h2
      · cases h2
      · split at h2
        · cases h2
        · cases h2
          simp [umFind_erase]
    have key2 : ∀ last : Nat,
        (if idx ≠ last then
            match s.moveLast idx last with
            | .error f => .error f
            | .ok s2 => s2.dropLast e
          else s.dropLast e) = .ok s1 → umFind s1.sparse_ e = none := by
      intro last h2
      by_cases hl : idx = last
      · simp only [hl, ne_eq, not_true_eq_false, if_false] at h2
        exact key _ h2
      · simp only [ne_eq, hl, not_false_eq_true, if_true] at h2
        cases hm : s.moveLast idx last with
        | error f => simp [hm] at h2
        | ok s2 =>
          simp only [hm] at h2
          exact key _ h2
    exact key2 _ hr

theorem contains_of_absent (s : Storage T) (e : entity) (hf : umFind s.sparse_ e = none) :
    s.contains e = .ok false := by
  simp [contains, hf]

theorem emplace_of_not_contains (s : Storage T) (e : entity) (v : T)
    (hc : s.contains e = .ok false) :
    s.emplace e v = .ok
      { sparse_ := umAssign s.sparse_ e s.dense_.length
        entities_ := s.entities_ ++ [e]
        dense_ := s.dense_ ++ [v] } := by
  simp [emplace, hc]

theorem emplace_sparse (s s1 : Storage T) (e : entity) (v : T) (he : s.emplace e v = .ok s1)
    (x : entity) :
    umFind s1.sparse_ x = if x = e then some s.dense_.length else umFind s.sparse_ x := by
  unfold emplace at he
  split at he
  · cases he
  · cases he
  · cases he
    simp [umFind_assign]

end Storage

namespace Registry

variable {V : Type}

theorem check_inv_all (r : Registry V) (h : r.check = true) : r.Inv := by
  simp only [check, List.all_eq_true] at h
  intro p hp
  exact Storage.check_inv _ (h p hp)

theorem removeAll_find (ps ps1 : List (Nat × Storage V)) (e : entity)
    (h : removeAll ps e = .ok ps1) (t : Nat) :
    (umFind ps t = none ∧ umFind ps1 t = none) ∨
      ∃ s s1, umFind ps t = some s ∧ umFind ps1 t = some s1 ∧ s.remove e = .ok s1 := by
  induction ps generalizing ps1 with
  | nil =>
    simp only [removeAll, Except.ok.injEq] at h
    subst h
    exact Or.inl ⟨rfl, rfl⟩
  | cons p rest ih =>
    obtain ⟨k, s⟩ := p
    simp only [removeAll] at h
    cases hs : s.remove e with
    | error f => simp [hs] at h
    | ok s1 =>
      cases hrest : removeAll rest e with
      | error f => simp [hs, hrest] at h
      | ok rest1 =>
        simp only [hs, hrest, Except.ok.injEq] at h
        subst h
        by_cases hk : k = t
        · exact Or.inr ⟨s, s1, by simp [umFind, hk], by simp [umFind, hk], hs⟩
        · simpa [umFind, hk] using ih rest1 hrest

theorem removeAll_mem (ps ps1 : List (Nat × Storage V)) (e : entity)
    (h : removeAll ps e = .ok ps1) (p1 : Nat × Storage V) (hp : p1 ∈ ps1) :
    ∃ p ∈ ps, p.1 = p1.1 ∧ p.2.remove e = .ok p1.2 := by
  induction ps generalizing ps1 with
  | nil =>
    simp only [removeAll, Except.ok.injEq] at h
    subst h
    cases hp
  | cons p rest ih =>
    obtain ⟨k, s⟩ := p
    simp only [removeAll] at h
    cases hs : s.remove e with
    | error f => simp [hs] at h
    | ok s1 =>
      cases hrest : removeAll rest e with
      | error f => simp [hs, hrest] at h
      | ok rest1 =>
        simp only [hs, hrest, Except.ok.injEq] at h
        subst h
        rcases List.mem_cons.mp hp with hp | hp
        · subst hp
          exact ⟨(k, s), List.mem_cons_self _ _, rfl, hs⟩
        · obtain ⟨p, hp1, hp2⟩ := ih rest1 hrest hp
          exact ⟨p, List.mem_cons_of_mem _ hp1, hp2⟩

theorem removeAll_defined (ps : List (Nat × Storage V)) (e : entity)
    (h : ∀ p ∈ ps, p.2.Inv) : ∃ ps1, removeAll ps e = .ok ps1 := by
  induction ps with
  | nil => exact ⟨[], rfl⟩
  | cons p rest ih =>
    obtain ⟨k, s⟩ := p
    obtain ⟨s1, hs1⟩ := Storage.remove_defined s (h (k, s) (List.mem_cons_self _ _)) e
    obtain ⟨rest1, hr1⟩ := ih (fun p hp => h p (List.mem_cons_of_mem _ hp))
    exact ⟨(k, s1) :: rest1, by simp [removeAll, hs1, hr1]⟩

theorem removeAll_noop (ps : List (Nat × Storage V)) (e : entity)
    (h : ∀ p ∈ ps, umFind p.2.sparse_ e = none) : removeAll ps e = .ok ps := by
  induction ps with
  | nil => rfl
  | cons p rest ih =>
    obtain ⟨k, s⟩ := p
    have hs := Storage.remove_of_absent s e (h (k, s) (List.mem_cons_self _ _))
    have hr := ih (fun p hp => h p (List.mem_cons_of_mem _ hp))
    simp [removeAll, hs, hr]

theorem all_of_after_destroy (r r1 : Registry V) (e : entity) (h : r.destroy e = .ok r1)
    (t : Nat) : r1.all_of t e = .ok false ∧
      ∀ s1, umFind r1.pools_ t = some s1 → umFind s1.sparse_ e = none := by
  unfold destroy at h
  cases hra : removeAll r.pools_ e with
  | error f => simp [hra] at h
  | ok ps =>
    simp only [hra, Except.ok.injEq] at h
    subst h
    rcases removeAll_find r.pools_ ps e hra t with ⟨_, h2⟩ | ⟨s, s1, _, h2, h3⟩
    · simp [all_of, h2]
    · have := Storage.remove_erases s s1 e h3
      simp [all_of, h2, Storage.contains_of_absent s1 e this, this]

end Registry


namespace Registry

variable {V : Type}

theorem emplace_of_no_store (r : Registry V) (t : Nat) (e : entity) (v : V)
    (h : umFind r.pools_ t = none) :
    r.emplace t e v = .ok
      { pools_ := umAssign (r.pools_ ++ [(t, Storage.empty)]) t ⟨[(e, 0)], [e], [v]⟩
        pool_ := r.pool_ } := by
  simp [emplace, assure, h, Storage.emplace, Storage.contains, Storage.empty, umFind, umAssign]

theorem emplace_of_store (r r2 : Registry V) (t : Nat) (e : entity) (v : V) (s : Storage V)
    (h : umFind r.pools_ t = some s) (he : r.emplace t e v = .ok r2) :
    ∃ s1, s.emplace e v = .ok s1 ∧ r2 = { pools_ := umAssign r.pools_ t s1, pool_ := r.pool_ } := by
  simp only [emplace, assure, h] at he
  cases hs : s.emplace e v with
  | error f => simp [hs] at he
  | ok s1 =>
    simp only [hs, Except.ok.injEq] at he
    exact ⟨s1, rfl, he.symm⟩

theorem emplace_defined (r : Registry V) (t : Nat) (e : entity) (v : V)
    (h : r.all_of t e = .ok false) : ∃ r2, r.emplace t e v = .ok r2 := by
  cases hf : umFind r.pools_ t with
  | none => exact ⟨_, emplace_of_no_store r t e v hf⟩
  | some s =>
    simp only [all_of, hf] at h
    simp [emplace, assure, hf, Storage.emplace_of_not_contains s e v h]

theorem all_of_emplace_other (r r2 : Registry V) (t : Nat) (x e : entity) (v : V)
    (hne : x ≠ e) (he : r.emplace t x v = .ok r2)
    (hs : ∀ s, umFind r.pools_ t = some s → umFind s.sparse_ e = none)
    (t' : Nat) (ha : r.all_of t' e = .ok false) : r2.all_of t' e = .ok false := by
  have hne' : ¬ e = x := fun h => hne h.symm
  cases hf : umFind r.pools_ t with
  | none =>
    rw [emplace_of_no_store r t x v hf] at he
    cases he
    by_cases ht : t' = t
    · subst ht
      simp [all_of, umFind_assign, Storage.contains, umFind, hne]
    · have ht' : ¬ t = t' := fun h => ht h.symm
      simp only [all_of, umFind_assign, ht, if_false, umFind_append_singleton, ht'] at ha ⊢
      cases hf' : umFind r.pools_ t' with
      | none => simp
      | some s' => simpa [hf'] using ha
  | some s =>
    obtain ⟨s1, hs1, hr2⟩ := emplace_of_store r r2 t x v s hf he
    subst hr2
    by_cases ht : t' = t
    · subst ht
      have h1 := Storage.emplace_sparse s s1 x v hs1 e
      rw [if_neg hne', hs s hf] at h1
      simp [all_of, umFind_assign, Storage.contains_of_absent s1 e h1]
    · simpa [all_of, umFind_assign, ht] using ha

end Registry

/-- C8: for every registry state and every entity `e`, a call `destroy e` that returns (and it
does return whenever every store satisfies the sparse/dense invariant) leaves `all_of t e`
false for every component type `t`; and after a later `emplace` of any type `t`, with or
without a store at that time, on another entity `x` (which returns, as `x` does not hold
`t`), `all_of u e` is still false for every type `u`. -/
theorem Registry.destroy_purges_all_types {V : Type} (r : Registry V) (e : entity) :
    (r.Inv → ∃ r1, r.destroy e = .ok r1) ∧
      ∀ r1, r.destroy e = .ok r1 →
        (∀ t, r1.all_of t e = .ok false) ∧
        (∀ t x v, x ≠ e → r1.all_of t x = .ok false →
          ∃ r2, r1.emplace t x v = .ok r2 ∧ ∀ u, r2.all_of u e = .ok false) := by
  refine ⟨?_, ?_⟩
  · intro hinv
    obtain ⟨ps, hps⟩ := Registry.removeAll_defined r.pools_ e hinv
    simp [Registry.destroy, hps]
  · intro r1 h1
    refine ⟨fun t => (Registry.all_of_after_destroy r r1 e h1 t).1, ?_⟩
    intro t x v hne hx
    obtain ⟨r2, h2⟩ := Registry.emplace_defined r1 t x v hx
    refine ⟨r2, h2, fun u => ?_⟩
    exact Registry.all_of_emplace_other r1 r2 t x e v hne h2
      (fun s hs => (Registry.all_of_after_destroy r r1 e h1 t).2 s hs) u
      (Registry.all_of_after_destroy r r1 e h1 u).1

/-- C8 at the sample registry: `destroy 3` returns and entity 3 holds no type afterwards. -/
theorem Registry.destroy_purges_all_types_witness :
    Registry.sample.Inv ∧
      (∃ r1, Registry.sample.destroy 3 = .ok r1) ∧
      Registry.sample.destroy 3 = .ok
        ⟨[(0, ⟨[(1, 0), (2, 1)], [1, 2], [10, 20]⟩), (1, ⟨[(1, 0)], [1], [11]⟩),
          (2, ⟨[], [], []⟩)], ⟨3, [3]⟩⟩ ∧
      (∀ t, Registry.all_of
        (⟨[(0, ⟨[(1, 0), (2, 1)], [1, 2], [10, 20]⟩), (1, ⟨[(1, 0)], [1], [11]⟩),
          (2, ⟨[], [], []⟩)], ⟨3, [3]⟩⟩ : Registry Nat) t 3 = .ok false) :=
  ⟨Registry.check_inv_all _ (by decide),
    (Registry.destroy_purges_all_types Registry.sample 3).1 (Registry.check_inv_all _ (by decide)),
    by decide,
    ((Registry.destroy_purges_all_types Registry.sample 3).2 _ (by decide)).1⟩

/-- C10: for every store and every entity `e` with `contains e` false, `emplace e v` returns,
`get e` on the result returns `v`, and (the dense arrays having equal length, as they do in
every store built by `emplace` and `remove`) `contains e` is then true. -/
theorem Storage.emplace_then_get {T : Type} (s : Storage T) (e : entity) (v : T)
    (hc : s.contains e = .ok false) :
    ∃ s1, s.emplace e v = .ok s1 ∧ s1.get e = .ok v ∧
      (s.entities_.length = s.dense_.length → s1.contains e = .ok true) := by
  refine ⟨_, Storage.emplace_of_not_contains s e v hc, ?_, ?_⟩
  · simp [Storage.get, umFind_assign, vecAt]
  · intro hlen
    simp [Storage.contains, umFind_assign, vecAt, ← hlen]

/-- C10 at a store holding entities 1 and 2, to which entity 5 is added with value 50. -/
theorem Storage.emplace_then_get_witness :
    (⟨[(1, 0), (2, 1)], [1, 2], [10, 20]⟩ : Storage Nat).contains 5 = .ok false ∧
      ∃ s1, (⟨[(1, 0), (2, 1)], [1, 2], [10, 20]⟩ : Storage Nat).emplace 5 50 = .ok s1 ∧
        s1.get 5 = .ok 50 ∧
        (([1, 2] : List entity).length = ([10, 20] : List Nat).length →
          s1.contains 5 = .ok true) :=
  ⟨by decide, Storage.emplace_then_get _ 5 50 (by decide)⟩


namespace Registry

variable {V : Type}

theorem reachable_stores (allowed : entity → Prop) (Q : Storage V → Prop)
    (h0 : Q Storage.empty)
    (hem : ∀ s s1 e v, Q s → allowed e → s.emplace e v = .ok s1 → Q s1)
    (hrm : ∀ s s1 e, Q s → s.remove e = .ok s1 → Q s1)
    (r : Registry V) (h : Registry.Reachable allowed r) : ∀ p ∈ r.pools_, Q p.2 := by
  induction h with
  | empty =>
    intro p hp
    cases hp
  | create _ ih => exact ih
  | @destroy r r1 e _ hd ih =>
    intro p1 hp1
    unfold Registry.destroy at hd
    cases hra : removeAll r.pools_ e with
    | error f => simp [hra] at hd
    | ok ps =>
      simp only [hra, Except.ok.injEq] at hd
      subst hd
      obtain ⟨p, hp, _, hrem⟩ := removeAll_mem r.pools_ ps e hra p1 hp1
      exact hrm p.2 p1.2 e (ih p hp) hrem
  | @emplace r r1 t e v _ hal he ih =>
    intro p1 hp1
    cases hf : umFind r.pools_ t with
    | none =>
      rw [emplace_of_no_store r t e v hf] at he
      cases he
      have hnew : Q (⟨[(e, 0)], [e], [v]⟩ : Storage V) :=
        hem Storage.empty _ e v h0 hal
          (by simp [Storage.emplace, Storage.contains, Storage.empty, umFind, umAssign])
      rcases mem_umAssign _ _ _ _ hp1 with hp | hp
      · rw [hp]
        exact hnew
      · rcases List.mem_append.mp hp with hp | hp
        · exact ih p1 hp
        · simp only [List.mem_singleton] at hp
          rw [hp]
          exact h0
    | some s =>
      obtain ⟨s1, hs1, hr1⟩ := emplace_of_store r r1 t e v s hf he
      subst hr1
      rcases mem_umAssign _ _ _ _ hp1 with hp | hp
      · rw [hp]
        exact hem s s1 e v (ih (t, s) (umFind_mem _ _ _ hf)) hal hs1
      · exact ih p1 hp

theorem reachable_wf (allowed : entity → Prop) (r : Registry V)
    (h : Registry.Reachable allowed r) : ∀ p ∈ r.pools_, p.2.WF :=
  reachable_stores allowed Storage.WF Storage.wf_empty
    (fun s s1 e v hs _ he => Storage.wf_emplace s s1 hs e v he)
    (fun s s1 e hs hr => Storage.wf_remove s s1 hs e hr) r h

theorem remove_keeps_null_absent (s s1 : Storage V) (e : entity)
    (h : s.WF ∧ umFind s.sparse_ null = none) (hr : s.remove e = .ok s1) :
    s1.WF ∧ umFind s1.sparse_ null = none := by
  refine ⟨Storage.wf_remove s s1 h.1 e hr, ?_⟩
  obtain ⟨⟨hinv, hconv⟩, hnull⟩ := h
  cases hf : umFind s.sparse_ e with
  | none =>
    rw [Storage.remove_of_absent s e hf] at hr
    cases hr
    exact hnull
  | some idx =>
    obtain ⟨m, v, hm, hv⟩ := Storage.last_slot s hinv e idx hf
    by_cases hl : idx = s.entities_.length - 1
    · rw [Storage.remove_last s hinv e idx hf hl] at hr
      cases hr
      simp only [umFind_erase, hnull]
      split <;> rfl
    · rw [Storage.remove_inner s hinv e idx m v hf hl hm hv] at hr
      cases hr
      have hmn : null ≠ m := by
        intro hx
        obtain ⟨i, hi⟩ := hconv m (List.mem_iff_getElem?.mpr ⟨_, hm⟩)
        rw [← hx, hnull] at hi
        cases hi
      simp only [umFind_erase, umFind_assign, hmn, if_false, hnull]
      split <;> rfl

theorem reachable_null_absent (r : Registry V)
    (h : Registry.Reachable (fun e => e ≠ null) r) :
    ∀ p ∈ r.pools_, umFind p.2.sparse_ null = none := by
  have key := reachable_stores (fun e => e ≠ null)
    (fun s : Storage V => s.WF ∧ umFind s.sparse_ null = none)
    ⟨Storage.wf_empty, rfl⟩
    (fun s s1 e v hs hne he => by
      refine ⟨Storage.wf_emplace s s1 hs.1 e v he, ?_⟩
      rw [Storage.emplace_sparse s s1 e v he null, if_neg (fun hx => hne hx.symm)]
      exact hs.2)
    (fun s s1 e hs hr => remove_keeps_null_absent s s1 e hs hr) r h
  exact fun p hp => (key p hp).2

end Registry

/-- C9 (as stated, refuted): the registry in which `emplace` has attached a component of type 0
to the null entity is reached through the public calls, and `destroy null` there removes
that component instead of leaving the state as it was. -/
theorem Registry.destroy_null_changes_state :
    Registry.Reachable (fun _ => True)
        (⟨[(0, ⟨[(0, 0)], [0], [7]⟩)], EntityPool.fresh⟩ : Registry Nat) ∧
      Registry.all_of (⟨[(0, ⟨[(0, 0)], [0], [7]⟩)], EntityPool.fresh⟩ : Registry Nat) 0 null
        = .ok true ∧
      Registry.destroy (⟨[(0, ⟨[(0, 0)], [0], [7]⟩)], EntityPool.fresh⟩ : Registry Nat) null
        = .ok ⟨[(0, ⟨[], [], []⟩)], EntityPool.fresh⟩ ∧
      Registry.destroy (⟨[(0, ⟨[(0, 0)], [0], [7]⟩)], EntityPool.fresh⟩ : Registry Nat) null
        ≠ .ok ⟨[(0, ⟨[(0, 0)], [0], [7]⟩)], EntityPool.fresh⟩ := by
  refine ⟨?_, by decide, by decide, by decide⟩
  exact Registry.Reachable.emplace 0 null 7 Registry.Reachable.empty trivial (by decide)

/-- C9 (amended): in every registry state reached through `create`, `destroy` and `emplace`
with `emplace` applied to non-null entities only, `destroy null` returns and the state after
it (every store and the allocator) equals the state before it. -/
theorem Registry.destroy_null_noop {V : Type} (r : Registry V)
    (h : Registry.Reachable (fun e => e ≠ null) r) : r.destroy null = .ok r := by
  have hn := Registry.reachable_null_absent r h
  simp [Registry.destroy, Registry.removeAll_noop r.pools_ null hn, EntityPool.destroy]

/-- C9 (amended) at the registry reached by `create` and an `emplace` on entity 1. -/
theorem Registry.destroy_null_noop_witness :
    Registry.Reachable (fun e => e ≠ null)
        (⟨[(0, ⟨[(1, 0)], [1], [7]⟩)], ⟨1, []⟩⟩ : Registry Nat) ∧
      Registry.destroy (⟨[(0, ⟨[(1, 0)], [1], [7]⟩)], ⟨1, []⟩⟩ : Registry Nat) null
        = .ok ⟨[(0, ⟨[(1, 0)], [1], [7]⟩)], ⟨1, []⟩⟩ :=
  have hr : Registry.Reachable (fun e => e ≠ null)
      (⟨[(0, ⟨[(1, 0)], [1], [7]⟩)], ⟨1, []⟩⟩ : Registry Nat) :=
    Registry.Reachable.emplace 0 1 7 (Registry.Reachable.create Registry.Reachable.empty)
      (by decide) (by decide)
  ⟨hr, Registry.destroy_null_noop _ hr⟩


/-! ## Lemmas on `View` -/

namespace Registry

variable {V : Type}

theorem assure_entities (r : Registry V) (t : Nat) :
    (r.assure t).1.entities = r.leadDense t := by
  unfold assure leadDense
  cases umFind r.pools_ t <;> rfl

theorem assure_find (r : Registry V) (t : Nat) :
    umFind (r.assure t).2.pools_ t = some (r.assure t).1 := by
  unfold assure
  cases hf : umFind r.pools_ t with
  | none => simp [umFind_append_singleton, hf]
  | some s => simp [hf]

theorem assure_assure (r : Registry V) (t : Nat) :
    (r.assure t).2.assure t = ((r.assure t).1, (r.assure t).2) := by
  have h := assure_find r t
  generalize (r.assure t).2 = r1 at h ⊢
  generalize (r.assure t).1 = s1 at h ⊢
  simp [assure, h]

theorem all_of_assure (r : Registry V) (t u : Nat) (e : entity) :
    (r.assure t).2.all_of u e = r.all_of u e := by
  unfold assure
  cases hf : umFind r.pools_ t with
  | none =>
    simp only [all_of, umFind_append_singleton]
    cases hu : umFind r.pools_ u with
    | some s => rfl
    | none =>
      by_cases htu : t = u
      · simp [htu, Storage.contains, Storage.empty, umFind]
      · simp [htu]
  | some s => rfl

theorem inv_assure (r : Registry V) (t : Nat) (h : r.Inv) : (r.assure t).2.Inv := by
  unfold assure
  cases hf : umFind r.pools_ t with
  | none =>
    intro p hp
    rcases List.mem_append.mp hp with hp | hp
    · exact h p hp
    · simp only [List.mem_singleton] at hp
      rw [hp]
      exact Storage.inv_empty
  | some s => exact h

theorem all_of_defined (r : Registry V) (h : r.Inv) (t : Nat) (e : entity) :
    ∃ b, r.all_of t e = .ok b := by
  unfold all_of
  cases hf : umFind r.pools_ t with
  | none => exact ⟨false, rfl⟩
  | some s => exact ⟨_, Storage.contains_of_inv s (h (t, s) (umFind_mem _ _ _ hf)) e⟩

theorem leadDense_nodup (r : Registry V) (h : r.Inv) (t : Nat) : (r.leadDense t).Nodup := by
  unfold leadDense
  cases hf : umFind r.pools_ t with
  | none => exact List.nodup_nil
  | some s => exact (h (t, s) (umFind_mem _ _ _ hf)).2.2

end Registry

namespace View

variable {V : Type}

theorem matchesFrom_eq (r : Registry V) (h : r.Inv) (e : entity) (ts : List Nat) (ok : Bool) :
    matchesFrom r e ts ok = .ok (ok && ts.all (fun t => decide (r.all_of t e = .ok true))) := by
  induction ts generalizing ok with
  | nil => simp [matchesFrom]
  | cons t ts ih =>
    cases ok with
    | false => simpa [matchesFrom] using ih false
    | true =>
      obtain ⟨b, hb⟩ := Registry.all_of_defined r h t e
      cases b <;> simp [matchesFrom, hb, ih]

theorem matches_eq (w : View) (r : Registry V) (h : r.Inv) (e : entity) :
    w.«matches» r e = .ok (w.holdsAll r e) := by
  simp [«matches», holdsAll, matchesFrom_eq r h]

theorem holdsAll_assure (w : View) (r : Registry V) (t : Nat) (e : entity) :
    w.holdsAll (r.assure t).2 e = w.holdsAll r e := by
  simp [holdsAll, Registry.all_of_assure]

theorem advanceLoop_spec (w : View) (r : Registry V) (h : r.Inv) (es : List entity)
    (n start : Nat) (hn : es.length - start ≤ n) :
    ∃ j, advanceLoop w r es n start = .ok j ∧ start ≤ j ∧ (start ≤ es.length → j ≤ es.length) ∧
      (∀ e, es[j]? = some e → w.holdsAll r e = true) ∧
      (es.drop start).filter (w.holdsAll r) = (es.drop j).filter (w.holdsAll r) := by
  induction n generalizing start with
  | zero =>
    have hs : ¬ start < es.length := by omega
    refine ⟨start, by simp [advanceLoop, hs], Nat.le_refl _, fun x => x, ?_, rfl⟩
    intro e he
    have := getElem?_lt_of_some _ _ _ he
    omega
  | succ n ih =>
    by_cases hs : start < es.length
    · have hat : es[start]? = some es[start] := List.getElem?_eq_getElem hs
      cases hp : w.holdsAll r es[start] with
      | true =>
        refine ⟨start, by simp [advanceLoop, hs, vecAt, hat, matches_eq w r h, hp],
          Nat.le_refl _, fun x => x, ?_, rfl⟩
        intro e he
        rw [hat] at he
        cases he
        exact hp
      | false =>
        obtain ⟨j, hj, h1, h2, h3, h4⟩ := ih (start + 1) (by omega)
        refine ⟨j, by simp [advanceLoop, hs, vecAt, hat, matches_eq w r h, hp, hj],
          by omega, fun _ => h2 (by omega), h3, ?_⟩
        rw [← h4, List.drop_eq_getElem_cons hs, List.filter_cons_of_neg (by simp [hp])]
    · refine ⟨start, by simp [advanceLoop, hs], Nat.le_refl _, fun x => x, ?_, rfl⟩
      intro e he
      have := getElem?_lt_of_some _ _ _ he
      omega

end View


namespace View

variable {V : Type}

theorem leadEntities_of_find (w : View) (r : Registry V) (s : Storage V)
    (hs : umFind r.pools_ w.lead = some s) : w.leadEntities r = (s.entities, r) := by
  simp [leadEntities, Registry.assure, hs]

theorem advanceToValid_spec (w : View) (r : Registry V) (s : Storage V)
    (hs : umFind r.pools_ w.lead = some s) (h : r.Inv) (start : Nat) :
    ∃ j, w.advanceToValid r start = .ok (j, r) ∧ start ≤ j ∧
      (start ≤ s.entities.length → j ≤ s.entities.length) ∧
      (∀ e, s.entities[j]? = some e → w.holdsAll r e = true) ∧
      (s.entities.drop start).filter (w.holdsAll r) =
        (s.entities.drop j).filter (w.holdsAll r) := by
  obtain ⟨j, hj, h1, h2, h3, h4⟩ :=
    advanceLoop_spec w r h s.entities (s.entities.length - start) start (Nat.le_refl _)
  refine ⟨j, ?_, h1, h2, h3, h4⟩
  simp [advanceToValid, leadEntities_of_find w r s hs, hj]

theorem loop_spec (w : View) (r : Registry V) (s : Storage V)
    (hs : umFind r.pools_ w.lead = some s) (h : r.Inv) (fuel pos : Nat) (acc : List entity)
    (hpos : pos ≤ s.entities.length)
    (hval : ∀ e, s.entities[pos]? = some e → w.holdsAll r e = true)
    (hfuel : s.entities.length - pos + 1 ≤ fuel) :
    loop w (fun _ r1 => .ok r1) ⟨s.entities.length⟩ fuel ⟨pos⟩ r acc =
      .ok (acc ++ (s.entities.drop pos).filter (w.holdsAll r), r) := by
  induction fuel generalizing pos acc with
  | zero => omega
  | succ fuel ih =>
    by_cases hp : pos = s.entities.length
    · subst hp
      simp [loop, Iterator.ne]
    · have hlt : pos < s.entities.length := by omega
      have hat : s.entities[pos]? = some s.entities[pos] := List.getElem?_eq_getElem hlt
      obtain ⟨j, hj, h1, h2, h3, h4⟩ := advanceToValid_spec w r s hs h (pos + 1)
      have hrec := ih j (acc ++ [s.entities[pos]]) (h2 (by omega)) h3 (by omega)
      have hkeep : w.holdsAll r s.entities[pos] = true := hval _ hat
      simp only [loop, Iterator.ne, ne_eq, hp, not_false_eq_true, decide_True, if_true, deref,
        leadEntities_of_find w r s hs, vecAt, hat, next, hj, hrec]
      rw [List.drop_eq_getElem_cons hlt, List.filter_cons_of_pos hkeep, h4]
      simp

theorem traverse_of_find (w : View) (r : Registry V) (s : Storage V)
    (hs : umFind r.pools_ w.lead = some s) (h : r.Inv) :
    w.traverse r = .ok (s.entities.filter (w.holdsAll r), r) := by
  obtain ⟨j, hj, _, h2, h3, h4⟩ := advanceToValid_spec w r s hs h 0
  have hl := loop_spec w r s hs h (s.entities.length + 1) j [] (h2 (Nat.zero_le _)) h3 (by omega)
  simp only [traverse, forEach, begin, hj, «end», leadEntities_of_find w r s hs, hl]
  rw [← h4]
  simp

theorem forEach_assure (w : View) (r : Registry V)
    (body : entity → Registry V → Except Fault (Registry V)) :
    w.forEach (r.assure w.lead).2 body = w.forEach r body := by
  have h : w.leadEntities (r.assure w.lead).2 = w.leadEntities r := by
    simp [leadEntities, Registry.assure_assure]
  simp [forEach, begin, advanceToValid, h]

end View

/-- C3: in every registry whose stores satisfy the sparse/dense invariant, a traversal of
`view_all<T1..Tn>()` from `begin()` to `end()` with no mutation returns, and yields exactly the
entities of the lead store's dense sequence for which `all_of` is true for every listed type,
in dense order; each is yielded once, and nothing is yielded when the lead type has no
store. The registry afterwards is the one `assure` leaves for the lead type. -/
theorem View.traverse_yields_intersection {V : Type} (w : View) (r : Registry V) (h : r.Inv) :
    w.traverse r =
        .ok ((r.leadDense w.lead).filter (w.holdsAll r), (r.assure w.lead).2) ∧
      ((r.leadDense w.lead).filter (w.holdsAll r)).Nodup ∧
      ((r.leadDense w.lead).filter (w.holdsAll r)).Sublist (r.leadDense w.lead) ∧
      (umFind r.pools_ w.lead = none → (r.leadDense w.lead).filter (w.holdsAll r) = []) := by
  refine ⟨?_, (Registry.leadDense_nodup r h w.lead).filter _, List.filter_sublist _, ?_⟩
  · have h1 := View.traverse_of_find w (r.assure w.lead).2 (r.assure w.lead).1
      (Registry.assure_find r w.lead) (Registry.inv_assure r w.lead h)
    have h2 : w.traverse (r.assure w.lead).2 = w.traverse r := View.forEach_assure w r _
    have h3 : w.holdsAll (r.assure w.lead).2 = w.holdsAll r :=
      funext (fun e => View.holdsAll_assure w r w.lead e)
    rw [h2, h3, Registry.assure_entities] at h1
    exact h1
  · intro hnone
    simp [Registry.leadDense, hnone]

/-- C3 at the sample registry: the view over types 0, 1 yields 1, 3, the view over types
0, 1, 2 yields 3, and the view over type 3, which has no store, yields nothing. -/
theorem View.traverse_yields_intersection_witness :
    Registry.sample.Inv ∧
      (View.view_all 0 [1]).traverse Registry.sample = .ok ([1, 3], Registry.sample) ∧
      (View.view_all 0 [1, 2]).traverse Registry.sample = .ok ([3], Registry.sample) ∧
      (View.view_all 3 []).traverse Registry.sample =
        .ok ([], ⟨Registry.sample.pools_ ++ [(3, Storage.empty)], Registry.sample.pool_⟩) :=
  ⟨Registry.check_inv_all _ (by decide),
    (View.traverse_yields_intersection (View.view_all 0 [1]) Registry.sample
      (Registry.check_inv_all _ (by decide))).1.trans (by decide),
    (View.traverse_yields_intersection (View.view_all 0 [1, 2]) Registry.sample
      (Registry.check_inv_all _ (by decide))).1.trans (by decide),
    (View.traverse_yields_intersection (View.view_all 3 []) Registry.sample
      (Registry.check_inv_all _ (by decide))).1.trans (by decide)⟩


/-- C11: for every store and every entity `e`, held or not, a call `remove e` that returns (and
it does return whenever the store satisfies the sparse/dense invariant) leaves a store in
which `contains e` is false. -/
theorem Storage.remove_then_not_contains {T : Type} (s : Storage T) (e : entity) :
    (s.Inv → ∃ s1, s.remove e = .ok s1) ∧
      ∀ s1, s.remove e = .ok s1 → s1.contains e = .ok false := by
  refine ⟨fun h => Storage.remove_defined s h e, ?_⟩
  intro s1 h1
  exact Storage.contains_of_absent s1 e (Storage.remove_erases s s1 e h1)

/-- C11 at a store holding entities 1, 2, 3, for the held entity 2 and the entity 7 it does
not hold. -/
theorem Storage.remove_then_not_contains_witness :
    (⟨[(1, 0), (2, 1), (3, 2)], [1, 2, 3], [10, 20, 30]⟩ : Storage Nat).Inv ∧
      (∃ s1, (⟨[(1, 0), (2, 1), (3, 2)], [1, 2, 3], [10, 20, 30]⟩ : Storage Nat).remove 2
        = .ok s1) ∧
      Storage.contains (⟨[(1, 0), (3, 1)], [1, 3], [10, 30]⟩ : Storage Nat) 2 = .ok false ∧
      Storage.contains (⟨[(1, 0), (2, 1), (3, 2)], [1, 2, 3], [10, 20, 30]⟩ : Storage Nat) 7
        = .ok false :=
  ⟨Storage.check_inv _ (by decide),
    (Storage.remove_then_not_contains _ 2).1 (Storage.check_inv _ (by decide)),
    (Storage.remove_then_not_contains
      (⟨[(1, 0), (2, 1), (3, 2)], [1, 2, 3], [10, 20, 30]⟩ : Storage Nat) 2).2 _ (by decide),
    (Storage.remove_then_not_contains
      (⟨[(1, 0), (2, 1), (3, 2)], [1, 2, 3], [10, 20, 30]⟩ : Storage Nat) 7).2 _ (by decide)⟩

/-- C12: in a store that satisfies the sparse/dense invariant, `remove e` for an entity `e` with
`contains e` false returns without a fault, and the store it returns (sparse index, dense
entities, dense values) is the store it was given. -/
theorem Storage.remove_absent_noop {T : Type} (s : Storage T) (h : s.Inv) (e : entity)
    (hc : s.contains e = .ok false) : s.remove e = .ok s := by
  rw [Storage.contains_of_inv s h e] at hc
  cases hf : umFind s.sparse_ e with
  | none => exact Storage.remove_of_absent s e hf
  | some i =>
    rw [hf] at hc
    cases hc

/-- C12 at a store holding entities 1 and 2, for the entity 5. -/
theorem Storage.remove_absent_noop_witness :
    (⟨[(1, 0), (2, 1)], [1, 2], [10, 20]⟩ : Storage Nat).Inv ∧
      (⟨[(1, 0), (2, 1)], [1, 2], [10, 20]⟩ : Storage Nat).contains 5 = .ok false ∧
      (⟨[(1, 0), (2, 1)], [1, 2], [10, 20]⟩ : Storage Nat).remove 5
        = .ok ⟨[(1, 0), (2, 1)], [1, 2], [10, 20]⟩ :=
  ⟨Storage.check_inv _ (by decide), by decide,
    Storage.remove_absent_noop _ (Storage.check_inv _ (by decide)) 5 (by decide)⟩

/-- C13: `emplace e v` on a store in which `contains e` is true stops at the assertion and
returns no store, so no sparse entry is overwritten and no slot is appended; and `emplace e v`
returns a store exactly when `contains e` is false. -/
theorem Storage.emplace_asserts_absent {T : Type} (s : Storage T) (e : entity) (v : T) :
    (s.contains e = .ok true → s.emplace e v = .error .assertion) ∧
      ((∃ s1, s.emplace e v = .ok s1) ↔ s.contains e = .ok false) := by
  refine ⟨?_, ?_, ?_⟩
  · intro hc
    simp [Storage.emplace, hc]
  · rintro ⟨s1, h1⟩
    unfold Storage.emplace at h1
    split at h1
    · cases h1
    · cases h1
    · assumption
  · intro hc
    exact ⟨_, Storage.emplace_of_not_contains s e v hc⟩

/-- C13 at a store holding entities 1 and 2: `emplace` on 2 stops at the assertion, `emplace`
on 5 returns. -/
theorem Storage.emplace_asserts_absent_witness :
    ((⟨[(1, 0), (2, 1)], [1, 2], [10, 20]⟩ : Storage Nat).contains 2 = .ok true ∧
        (⟨[(1, 0), (2, 1)], [1, 2], [10, 20]⟩ : Storage Nat).emplace 2 21
          = .error .assertion) ∧
      ((⟨[(1, 0), (2, 1)], [1, 2], [10, 20]⟩ : Storage Nat).contains 5 = .ok false ∧
        ∃ s1, (⟨[(1, 0), (2, 1)], [1, 2], [10, 20]⟩ : Storage Nat).emplace 5 50 = .ok s1) :=
  ⟨⟨by decide, (Storage.emplace_asserts_absent _ 2 21).1 (by decide)⟩,
    ⟨by decide, (Storage.emplace_asserts_absent
      (⟨[(1, 0), (2, 1)], [1, 2], [10, 20]⟩ : Storage Nat) 5 50).2.mpr (by decide)⟩⟩

/-- C16: in every pool state, for an entity `e` with `isValid e` true, `destroy e` makes
`isValid e` false, the next `create` returns `e` and leaves exactly the pool state from before
the `destroy`, in which `isValid e` is true. -/
theorem EntityPool.destroy_then_create {p : EntityPool} {e : entity}
    (hv : p.isValid e = true) :
    (p.destroy e).isValid e = false ∧ (p.destroy e).create = (e, p) ∧
      (p.destroy e).create.2.isValid (p.destroy e).create.1 = true := by
  obtain ⟨hn, _, _⟩ := (EntityPool.isValid_iff p e).mp hv
  have hd : p.destroy e = ⟨p.last_, p.free_ ++ [e]⟩ := by
    simp [EntityPool.destroy, hn]
  have hc : (p.destroy e).create = (e, p) := by
    rw [hd, EntityPool.create_of_concat ⟨p.last_, p.free_ ++ [e]⟩ p.free_ e rfl]
  refine ⟨?_, hc, ?_⟩
  · rw [hd]
    simp [EntityPool.isValid, EntityPool.isFree]
  · rw [hc]
    exact hv

/-- C16 at the pool with `last_ = 3` and free list `[2]`, for the entity 3. -/
theorem EntityPool.destroy_then_create_witness :
    (⟨3, [2]⟩ : EntityPool).isValid 3 = true ∧
      ((⟨3, [2]⟩ : EntityPool).destroy 3).isValid 3 = false ∧
      ((⟨3, [2]⟩ : EntityPool).destroy 3).create = (3, ⟨3, [2]⟩) ∧
      ((⟨3, [2]⟩ : EntityPool).destroy 3).create.2.isValid
        ((⟨3, [2]⟩ : EntityPool).destroy 3).create.1 = true :=
  ⟨by decide, EntityPool.destroy_then_create (by decide)⟩


theorem Storage.get_assertion_iff {T : Type} (s : Storage T) (e : entity) :
    s.get e = .error .assertion ↔ umFind s.sparse_ e = none := by
  unfold Storage.get
  cases hf : umFind s.sparse_ e with
  | none => simp
  | some i =>
    simp only [vecAt]
    cases s.dense_[i]? <;> simp

theorem Storage.get_of_inv {T : Type} (s : Storage T) (h : s.Inv) (e : entity) (i : Nat)
    (hf : umFind s.sparse_ e = some i) :
    ∃ v, s.dense_[i]? = some v ∧ s.get e = .ok v := by
  obtain ⟨_, hb, _⟩ := h.1 e i hf
  exact ⟨s.dense_[i], List.getElem?_eq_getElem hb,
    by simp [Storage.get, hf, vecAt, List.getElem?_eq_getElem hb]⟩

/-- C14: `get<T>(e)` stops at an assertion if and only if the registry has no store for `T` or
`e` has no entry in the store of `T`; with stores that satisfy the sparse/dense invariant that
is exactly when `all_of<T>(e)` is false, and otherwise `get<T>(e)` returns the value at the
dense slot of `e` in the store of `T`. -/
theorem Registry.get_fails_iff_absent {V : Type} (r : Registry V) (t : Nat) (e : entity) :
    (r.get t e = .error .assertion ↔
        (umFind r.pools_ t = none ∨
          ∃ s, umFind r.pools_ t = some s ∧ umFind s.sparse_ e = none)) ∧
      (r.Inv → (r.get t e = .error .assertion ↔ r.all_of t e = .ok false)) ∧
      (r.Inv → ∀ s i, umFind r.pools_ t = some s → umFind s.sparse_ e = some i →
        r.all_of t e = .ok true ∧ ∃ v, s.dense_[i]? = some v ∧ r.get t e = .ok v) := by
  refine ⟨?_, ?_, ?_⟩
  · unfold Registry.get
    cases hf : umFind r.pools_ t with
    | none => simp
    | some s => simp [Storage.get_assertion_iff]
  · intro hinv
    unfold Registry.get Registry.all_of
    cases hf : umFind r.pools_ t with
    | none => simp
    | some s =>
      have hs := hinv (t, s) (umFind_mem _ _ _ hf)
      simp only [Storage.get_assertion_iff, Storage.contains_of_inv s hs e]
      cases umFind s.sparse_ e <;> simp
  · intro hinv s i hf hi
    have hs := hinv (t, s) (umFind_mem _ _ _ hf)
    obtain ⟨v, hv, hg⟩ := Storage.get_of_inv s hs e i hi
    refine ⟨?_, v, hv, ?_⟩
    · simp [Registry.all_of, hf, Storage.contains_of_inv s hs e, hi]
    · simp [Registry.get, hf, hg]

/-- C14 at the sample registry: type 3 has no store, entity 2 is not in the store of type 1,
and entity 3 has the value 31 there. -/
theorem Registry.get_fails_iff_absent_witness :
    Registry.sample.Inv ∧
      Registry.sample.get 3 1 = .error .assertion ∧
      Registry.sample.get 1 2 = .error .assertion ∧
      (Registry.sample.all_of 1 3 = .ok true ∧
        ∃ v, ([11, 31] : List Nat)[1]? = some v ∧ Registry.sample.get 1 3 = .ok v) ∧
      Registry.sample.get 1 3 = .ok 31 :=
  ⟨Registry.check_inv_all _ (by decide),
    (Registry.get_fails_iff_absent Registry.sample 3 1).1.mpr (Or.inl (by decide)),
    ((Registry.get_fails_iff_absent Registry.sample 1 2).2.1
      (Registry.check_inv_all _ (by decide))).mpr (by decide),
    (Registry.get_fails_iff_absent Registry.sample 1 3).2.2
      (Registry.check_inv_all _ (by decide)) ⟨[(1, 0), (3, 1)], [1, 3], [11, 31]⟩ 1
      (by decide) (by decide),
    by decide⟩


theorem Storage.wf_contains_iff {T : Type} (s : Storage T) (h : s.WF) (e : entity) :
    s.contains e = .ok true ↔ e ∈ s.entities := by
  rw [Storage.contains_of_inv s h.1 e]
  constructor
  · intro hc
    cases hf : umFind s.sparse_ e with
    | none => simp [hf] at hc
    | some i => exact List.mem_iff_getElem?.mpr ⟨i, (h.1.1 e i hf).2.2⟩
  · intro hm
    obtain ⟨i, hi⟩ := h.2 e hm
    simp [hi]

/-- C19: in every store reached from an empty store by `emplace` calls applied while
`contains` is false and by `remove` calls, `contains e` is true exactly for the entities `e`
that occur in `entities()`, no entity occurs twice there, and so the entities for which
`contains` is true are as many as the length of `entities()`. -/
theorem Storage.contains_iff_in_entities {T : Type} (ops : List (StoreOp T))
    (hp : StoreOp.respects Storage.empty ops = true) :
    ∃ s : Storage T, StoreOp.run Storage.empty ops = .ok s ∧
      (∀ e, s.contains e = .ok true ↔ e ∈ s.entities) ∧
      (∀ e, e ∉ s.entities → s.contains e = .ok false) ∧
      s.entities.Nodup ∧
      ∃ F : Finset entity, (∀ e, e ∈ F ↔ s.contains e = .ok true) ∧
        F.card = s.entities.length := by
  obtain ⟨s, hs, hw⟩ := StoreOp.run_take ops Storage.empty Storage.wf_empty hp ops.length
  rw [List.take_length] at hs
  refine ⟨s, hs, Storage.wf_contains_iff s hw, ?_, hw.1.2.2, s.entities.toFinset, ?_, ?_⟩
  · intro e he
    rw [Storage.contains_of_inv s hw.1 e]
    cases hf : umFind s.sparse_ e with
    | none => rfl
    | some i => exact absurd (List.mem_iff_getElem?.mpr ⟨i, (hw.1.1 e i hf).2.2⟩) he
  · intro e
    rw [List.mem_toFinset, Storage.wf_contains_iff s hw e]
  · exact List.toFinset_card_of_nodup hw.1.2.2

/-- C19 at a run of five calls that ends with the entities 3, 2, 1. -/
theorem Storage.contains_iff_in_entities_witness :
    StoreOp.respects (Storage.empty : Storage Nat)
        [.emplace 1 10, .emplace 2 20, .emplace 3 30, .remove 1, .emplace 1 11] = true ∧
      ∃ s : Storage Nat,
        StoreOp.run Storage.empty
          [.emplace 1 10, .emplace 2 20, .emplace 3 30, .remove 1, .emplace 1 11] = .ok s ∧
        (∀ e, s.contains e = .ok true ↔ e ∈ s.entities) ∧
        (∀ e, e ∉ s.entities → s.contains e = .ok false) ∧
        s.entities.Nodup ∧
        ∃ F : Finset entity, (∀ e, e ∈ F ↔ s.contains e = .ok true) ∧
          F.card = s.entities.length :=
  ⟨by decide, Storage.contains_iff_in_entities _ (by decide)⟩


theorem Storage.checkWF_wf {T : Type} (s : Storage T) (h : s.checkWF = true) : s.WF := by
  simp only [Storage.checkWF, Bool.and_eq_true, List.all_eq_true] at h
  refine ⟨Storage.check_inv s h.1, ?_⟩
  intro e he
  exact Option.isSome_iff_exists.mp (h.2 e he)

theorem Registry.checkWF_all {V : Type} (r : Registry V) (h : r.checkWF = true) : r.WF := by
  simp only [Registry.checkWF, List.all_eq_true] at h
  intro p hp
  exact Storage.checkWF_wf _ (h p hp)

theorem Registry.wf_inv {V : Type} (r : Registry V) (h : r.WF) : r.Inv :=
  fun p hp => (h p hp).1

theorem Storage.remove_frame {T : Type} (s s1 : Storage T) (h : s.WF) (e x : entity)
    (hne : x ≠ e) (hr : s.remove e = .ok s1) :
    s1.contains x = s.contains x ∧ (s.contains x = .ok true → s1.get x = s.get x) := by
  have hw1 := Storage.wf_remove s s1 h e hr
  obtain ⟨hinv, hconv⟩ := h
  cases hf : umFind s.sparse_ e with
  | none =>
    rw [Storage.remove_of_absent s e hf] at hr
    cases hr
    exact ⟨rfl, fun _ => rfl⟩
  | some idx =>
    obtain ⟨m, v, hm, hv⟩ := Storage.last_slot s hinv e idx hf
    obtain ⟨a, b, c⟩ := hinv.1 e idx hf
    have h2 := hinv.2.1
    have h3 := hinv.2.2
    rw [Storage.contains_of_inv s1 hw1.1 x, Storage.contains_of_inv s hinv x]
    by_cases hl : idx = s.entities_.length - 1
    · rw [Storage.remove_last s hinv e idx hf hl] at hr
      cases hr
      have hfx : umFind (umErase s.sparse_ e) x = umFind s.sparse_ x := by
        simp [umFind_erase, hne]
      refine ⟨by simp only [hfx], ?_⟩
      intro hc
      cases hx : umFind s.sparse_ x with
      | none => simp [hx] at hc
      | some i =>
        obtain ⟨a', b', c'⟩ := hinv.1 x i hx
        have hi : i ≠ idx := by
          intro hi
          subst hi
          rw [c] at c'
          exact hne (Option.some.inj c').symm
        have hlt : i < s.dense_.length - 1 := by omega
        simp only [Storage.get, hfx, hx, vecAt, List.getElem?_dropLast, if_pos hlt]
    · rw [Storage.remove_inner s hinv e idx m v hf hl hm hv] at hr
      cases hr
      have hme : m ≠ e := by
        intro hx
        subst hx
        exact hl (nodup_index_unique _ h3 _ _ _ c hm)
      have hidx : idx < s.dense_.length - 1 := by omega
      by_cases hxm : x = m
      · subst hxm
        obtain ⟨i, hi⟩ := hconv x (List.mem_iff_getElem?.mpr ⟨_, hm⟩)
        have hil : i = s.entities_.length - 1 :=
          nodup_index_unique _ h3 _ _ _ (hinv.1 x i hi).2.2 hm
        have hfx : umFind (umErase (umAssign s.sparse_ x idx) e) x = some idx := by
          simp [umFind_erase, umFind_assign, hne]
        refine ⟨by simp only [hfx, hi, Option.isSome_some], ?_⟩
        intro _
        have hv' : s.dense_[i]? = some v := by rw [hil]; exact hv
        simp only [Storage.get, hfx, hi, vecAt, getElem?_set_dropLast _ _ _ _ hidx, if_true, hv']
      · have hfx : umFind (umErase (umAssign s.sparse_ m idx) e) x = umFind s.sparse_ x := by
          simp [umFind_erase, umFind_assign, hne, hxm]
        refine ⟨by simp only [hfx], ?_⟩
        intro hc
        cases hx : umFind s.sparse_ x with
        | none => simp [hx] at hc
        | some i =>
          obtain ⟨a', b', c'⟩ := hinv.1 x i hx
          have hi : i ≠ idx := by
            intro hi
            subst hi
            rw [c] at c'
            exact hne (Option.some.inj c').symm
          have hi2 : i ≠ s.entities_.length - 1 := by
            intro hi2
            subst hi2
            rw [hm] at c'
            exact hxm (Option.some.inj c').symm
          have hlt : i < s.dense_.length - 1 := by omega
          have hi3 : ¬ idx = i := fun hh => hi hh.symm
          simp only [Storage.get, hfx, hx, vecAt, getElem?_set_dropLast _ _ _ _ hlt, if_neg hi3]


theorem Registry.reachable_registry_wf {V : Type} (allowed : entity → Prop) (r : Registry V)
    (h : Registry.Reachable allowed r) : r.WF :=
  Registry.reachable_wf allowed r h

theorem Registry.destroy_frame_of_wf {V : Type} (r : Registry V) (h : r.WF) (e x : entity)
    (hne : x ≠ e) :
    ∃ r1, r.destroy e = .ok r1 ∧
      ∀ t, r1.all_of t x = r.all_of t x ∧
        (r.all_of t x = .ok true → r1.get t x = r.get t x) := by
  obtain ⟨ps, hps⟩ := Registry.removeAll_defined r.pools_ e (Registry.wf_inv r h)
  refine ⟨⟨ps, r.pool_.destroy e⟩, by simp [Registry.destroy, hps], ?_⟩
  intro t
  rcases Registry.removeAll_find r.pools_ ps e hps t with ⟨h1, h2⟩ | ⟨s, s1, h1, h2, h3⟩
  · simp [Registry.all_of, Registry.get, h1, h2]
  · have hs := h (t, s) (umFind_mem _ _ _ h1)
    obtain ⟨hc, hg⟩ := Storage.remove_frame s s1 hs e x hne h3
    simp only [Registry.all_of, Registry.get, h1, h2]
    exact ⟨hc, hg⟩

/-- A store in which the dense entity 2 has no sparse entry satisfies the three parts of the
sparse/dense invariant, yet no sequence of public calls builds it; there `destroy 1` would
record entity 2. This is why the frame property below is stated on reachable registries. -/
theorem Registry.dangling_entity_unreachable :
    Registry.Inv (⟨[(0, ⟨[(1, 0)], [1, 2], [10, 20]⟩)], ⟨2, []⟩⟩ : Registry Nat) ∧
      (∀ allowed : entity → Prop, ¬ Registry.Reachable allowed
        (⟨[(0, ⟨[(1, 0)], [1, 2], [10, 20]⟩)], ⟨2, []⟩⟩ : Registry Nat)) ∧
      Registry.all_of (⟨[(0, ⟨[(1, 0)], [1, 2], [10, 20]⟩)], ⟨2, []⟩⟩ : Registry Nat) 0 2
        = .ok false ∧
      Registry.destroy (⟨[(0, ⟨[(1, 0)], [1, 2], [10, 20]⟩)], ⟨2, []⟩⟩ : Registry Nat) 1
        = .ok ⟨[(0, ⟨[(2, 0)], [2], [20]⟩)], ⟨2, [1]⟩⟩ ∧
      Registry.all_of (⟨[(0, ⟨[(2, 0)], [2], [20]⟩)], ⟨2, [1]⟩⟩ : Registry Nat) 0 2
        = .ok true := by
  refine ⟨Registry.check_inv_all _ (by decide), ?_, by decide, by decide, by decide⟩
  intro allowed hr
  have hw := Registry.reachable_registry_wf allowed _ hr
  obtain ⟨i, hi⟩ := (hw (0, ⟨[(1, 0)], [1, 2], [10, 20]⟩) (by simp)).2 2 (by simp)
  simp [umFind] at hi

/-- C18: every registry state reached through the public calls satisfies the sparse/dense
invariant in each store, and there, for distinct entities `e` and `x`, `destroy e` returns and
leaves `x` untouched: for every component type `t`, `all_of t x` has the value it had before
and, when that is true, `get t x` returns the value it returned before, also when `x` is the
entity moved by the swap-remove. -/
theorem Registry.destroy_leaves_others {V : Type} (allowed : entity → Prop) (r : Registry V)
    (hr : Registry.Reachable allowed r) (e x : entity) (hne : x ≠ e) :
    r.Inv ∧
      ∃ r1, r.destroy e = .ok r1 ∧
        ∀ t, r1.all_of t x = r.all_of t x ∧
          (r.all_of t x = .ok true → r1.get t x = r.get t x) :=
  ⟨Registry.wf_inv r (Registry.reachable_registry_wf allowed r hr),
    Registry.destroy_frame_of_wf r (Registry.reachable_registry_wf allowed r hr) e x hne⟩

/-- C18 at the registry reached by three `create` calls and `emplace` of type 0 on entities
1, 2, 3: `destroy 1` moves entity 3 into slot 0 and leaves what entity 3 holds as it was. -/
theorem Registry.destroy_leaves_others_witness :
    Registry.Reachable (fun _ => True)
        (⟨[(0, ⟨[(1, 0), (2, 1), (3, 2)], [1, 2, 3], [10, 20, 30]⟩)], ⟨3, []⟩⟩ :
          Registry Nat) ∧
      Registry.Inv
        (⟨[(0, ⟨[(1, 0), (2, 1), (3, 2)], [1, 2, 3], [10, 20, 30]⟩)], ⟨3, []⟩⟩ :
          Registry Nat) ∧
      ∃ r1, Registry.destroy
          (⟨[(0, ⟨[(1, 0), (2, 1), (3, 2)], [1, 2, 3], [10, 20, 30]⟩)], ⟨3, []⟩⟩ :
            Registry Nat) 1 = .ok r1 ∧
        ∀ t, r1.all_of t 3 = Registry.all_of
            (⟨[(0, ⟨[(1, 0), (2, 1), (3, 2)], [1, 2, 3], [10, 20, 30]⟩)], ⟨3, []⟩⟩ :
              Registry Nat) t 3 ∧
          (Registry.all_of
              (⟨[(0, ⟨[(1, 0), (2, 1), (3, 2)], [1, 2, 3], [10, 20, 30]⟩)], ⟨3, []⟩⟩ :
                Registry Nat) t 3 = .ok true →
            r1.get t 3 = Registry.get
              (⟨[(0, ⟨[(1, 0), (2, 1), (3, 2)], [1, 2, 3], [10, 20, 30]⟩)], ⟨3, []⟩⟩ :
                Registry Nat) t 3) :=
  have h0 : Registry.Reachable (fun _ => True) (⟨[], ⟨3, []⟩⟩ : Registry Nat) :=
    Registry.Reachable.create (Registry.Reachable.create
      (Registry.Reachable.create Registry.Reachable.empty))
  have h1 : Registry.Reachable (fun _ => True)
      (⟨[(0, ⟨[(1, 0)], [1], [10]⟩)], ⟨3, []⟩⟩ : Registry Nat) :=
    Registry.Reachable.emplace 0 1 10 h0 trivial (by decide)
  have h2 : Registry.Reachable (fun _ => True)
      (⟨[(0, ⟨[(1, 0), (2, 1)], [1, 2], [10, 20]⟩)], ⟨3, []⟩⟩ : Registry Nat) :=
    Registry.Reachable.emplace 0 2 20 h1 trivial (by decide)
  have h3 : Registry.Reachable (fun _ => True)
      (⟨[(0, ⟨[(1, 0), (2, 1), (3, 2)], [1, 2, 3], [10, 20, 30]⟩)], ⟨3, []⟩⟩ :
        Registry Nat) :=
    Registry.Reachable.emplace 0 3 30 h2 trivial (by decide)
  ⟨h3, Registry.destroy_leaves_others (fun _ => True) _ h3 1 3 (by decide)⟩



theorem View.traverse_eq {V : Type} (w : View) (r : Registry V) (h : r.Inv) :
    w.traverse r = .ok ((r.leadDense w.lead).filter (w.holdsAll r), (r.assure w.lead).2) := by
  have h1 := View.traverse_of_find w (r.assure w.lead).2 (r.assure w.lead).1
    (Registry.assure_find r w.lead) (Registry.inv_assure r w.lead h)
  have h2 : w.traverse (r.assure w.lead).2 = w.traverse r := View.forEach_assure w r _
  have h3 : w.holdsAll (r.assure w.lead).2 = w.holdsAll r :=
    funext (fun e => View.holdsAll_assure w r w.lead e)
  rw [h2, h3, Registry.assure_entities] at h1
  exact h1

/-- C15 (as stated, refuted): the sample registry has no store for type 3, and after a
traversal of the view over type 3 it has an empty one: the set of registered stores changed. -/
theorem View.traverse_registers_store :
    umFind Registry.sample.pools_ 3 = none ∧
      (View.view_all 3 []).traverse Registry.sample =
        .ok ([], ⟨Registry.sample.pools_ ++ [(3, Storage.empty)], Registry.sample.pool_⟩) ∧
      umFind (Registry.sample.pools_ ++ [(3, (Storage.empty : Storage Nat))]) 3
        = some Storage.empty ∧
      (⟨Registry.sample.pools_ ++ [(3, Storage.empty)], Registry.sample.pool_⟩ : Registry Nat)
        ≠ Registry.sample := by
  decide

/-- C15 (amended): in every registry whose stores satisfy the sparse/dense invariant, a
traversal of `view_all<T1..Tn>()` from `begin()` to `end()` returns; when a store for the lead
type exists the registry afterwards is the registry before (same stores, same contents, same
allocator), and when none exists the only change is an empty store registered for the lead
type. -/
theorem View.traverse_changes_lead_only {V : Type} (w : View) (r : Registry V) (h : r.Inv) :
    (∀ s, umFind r.pools_ w.lead = some s → ∃ l, w.traverse r = .ok (l, r)) ∧
      (umFind r.pools_ w.lead = none →
        w.traverse r = .ok ([], ⟨r.pools_ ++ [(w.lead, Storage.empty)], r.pool_⟩)) := by
  have ht := View.traverse_eq w r h
  refine ⟨?_, ?_⟩
  · intro s hs
    refine ⟨(r.leadDense w.lead).filter (w.holdsAll r), ?_⟩
    rw [ht]
    simp [Registry.assure, hs]
  · intro hn
    rw [ht]
    simp [Registry.assure, Registry.leadDense, hn]

/-- C15 (amended) at the sample registry, for a view led by type 0 and a view led by type 3. -/
theorem View.traverse_changes_lead_only_witness :
    Registry.sample.Inv ∧
      (∃ l, (View.view_all 0 [1]).traverse Registry.sample = .ok (l, Registry.sample)) ∧
      (View.view_all 3 [0]).traverse Registry.sample =
        .ok ([], ⟨Registry.sample.pools_ ++ [(3, Storage.empty)], Registry.sample.pool_⟩) :=
  ⟨Registry.check_inv_all _ (by decide),
    (View.traverse_changes_lead_only (View.view_all 0 [1]) Registry.sample
      (Registry.check_inv_all _ (by decide))).1
      ⟨[(1, 0), (2, 1), (3, 2)], [1, 2, 3], [10, 20, 30]⟩ (by decide),
    (View.traverse_changes_lead_only (View.view_all 3 [0]) Registry.sample
      (Registry.check_inv_all _ (by decide))).2 (by decide)⟩

/-- With `end()` evaluated once, as in a range-based `for`, the same removal makes the run read
the lead entities outside their bounds: position 2 differs from the cached end 3. -/
theorem View.range_for_removal_undefined :
    View.forEach (View.view_all 0 []) Registry.sample (View.destroyVisited 1)
      = .error .undefined := by
  decide

/-- C17: on the sample registry, whose lead store of type 0 has the dense order 1, 2, 3, the
loop `for (it = begin(); it != end(); ++it)` over the view of type 0 whose body destroys the
visited entity 1 (so 1 is removed from the lead store before `++it`) yields 1 and 2 and ends,
for every step budget of at least three; entity 3 holds type 0 before and after, sits in slot
0 of the lead store afterwards, and is not yielded. -/
theorem View.removal_skips_swapped_entity (n : Nat) :
    Registry.sample.leadDense 0 = [1, 2, 3] ∧
      View.forEachLive (View.view_all 0 []) Registry.sample (View.destroyVisited 1) (n + 3)
        = .ok ([1, 2],
            ⟨[(0, ⟨[(2, 1), (3, 0)], [3, 2], [30, 20]⟩), (1, ⟨[(3, 0)], [3], [31]⟩),
              (2, ⟨[(3, 0)], [3], [32]⟩)], ⟨3, [1]⟩⟩) ∧
      Registry.sample.all_of 0 3 = .ok true ∧
      Registry.all_of
        (⟨[(0, ⟨[(2, 1), (3, 0)], [3, 2], [30, 20]⟩), (1, ⟨[(3, 0)], [3], [31]⟩),
          (2, ⟨[(3, 0)], [3], [32]⟩)], ⟨3, [1]⟩⟩ : Registry Nat) 0 3 = .ok true ∧
      3 ∉ ([1, 2] : List entity) :=
  ⟨rfl, rfl, rfl, rfl, by decide⟩

end ecs
